import Mathlib

/-!
Verification development for the `unflatten` transformation
(src/translate/tools/unflatten.py): a flat mapping of dotted/bracketed
key paths is turned into a nested structure of ordered mappings and
lists.

The embedding is shallow and executable.  Strings are modelled as lists
of characters (`String.data`); the regular expression
`(\.|(?:\[\d+\])+(?=\.|\Z))` used by `_parse_key` is modelled by an
explicit left-to-right scanner with the same leftmost-match semantics
(digits are ASCII digits).  Mutable holder objects are modelled by an
arena: a holder reference `Node.ref i` stands for a pointer to the i-th
created holder, and in-place mutation becomes functional update of the
arena.  Fuel arguments make every function structurally recursive; the
fuel is always sufficient, which the congruence lemmas below make
precise.
-/

set_option linter.unusedVariables false

namespace Unflatten

/-- One decoded step of a flat key: a field name or a sequence index. -/
inductive Seg where
  | field (s : String)
  | index (n : Nat)
deriving DecidableEq, Repr

/-- Opaque terminal values supplied by the caller (never interpreted). -/
inductive Term where
  | int (n : Int)
  | str (s : String)
deriving DecidableEq, Repr

/-! ### Key-path parsing (`_parse_key`) -/

/-- Numeric value of a run of decimal digit characters, as `int()` computes it. -/
def natOfDigits (ds : List Char) : Nat :=
  ds.foldl (fun a c => a * 10 + (c.toNat - 48)) 0

/-- A decimal digit character (used to mirror the rendering of `"%d"`). -/
def digitChar : Nat → Char
  | 0 => '0' | 1 => '1' | 2 => '2' | 3 => '3' | 4 => '4'
  | 5 => '5' | 6 => '6' | 7 => '7' | 8 => '8' | _ => '9'

def decGo : Nat → Nat → List Char → List Char
  | 0, _, acc => acc
  | f + 1, n, acc =>
    if n < 10 then digitChar n :: acc
    else decGo f (n / 10) (digitChar (n % 10) :: acc)

/-- Decimal representation of a natural number (`"%d"`). -/
def decRepr (n : Nat) : List Char := decGo (n + 1) n []

/-- Match one bracketed integer group `[digits]` at the head of the input,
returning its value and the rest of the input. -/
def parseGroup (cs : List Char) : Option (Nat × List Char) :=
  match cs with
  | c :: rest =>
    if c = '[' then
      match rest.dropWhile Char.isDigit with
      | d :: r =>
        if d = ']' then
          if (rest.takeWhile Char.isDigit).isEmpty then none
          else some (natOfDigits (rest.takeWhile Char.isDigit), r)
        else none
      | [] => none
    else none
  | [] => none

def parseRunGo : Nat → List Char → List Nat × List Char
  | 0, cs => ([], cs)
  | f + 1, cs =>
    match parseGroup cs with
    | some (n, r) =>
      let p := parseRunGo f r
      (n :: p.1, p.2)
    | none => ([], cs)

/-- Greedily match a maximal (possibly empty) run of bracketed integer
groups at the head of the input. -/
def parseRun (cs : List Char) : List Nat × List Char := parseRunGo (cs.length + 1) cs

/-- The bracket-run alternative of the splitting pattern
`(?:\[\d+\])+(?=\.|\Z)`: one or more consecutive groups immediately
followed by a dot or the end of the input.  Greedy matching needs no
backtracking here: a shorter run is followed by a well-formed group's
open bracket, which fails the lookahead anyway. -/
def tryRun (cs : List Char) : Option (List Nat × List Char) :=
  match parseRun cs with
  | (ns, rest) =>
    if ns.isEmpty then none
    else
      match rest with
      | [] => some (ns, [])
      | c :: _ => if c = '.' then some (ns, rest) else none

/-- The scanner of `_parse_key`: walk the key text accumulating the
current token; a dot flushes the token as a field segment; a matched
bracket run flushes the token, emits its indexes, drops the bogus empty
token that follows the run, and (when the run is followed by a dot)
continues after that dot.  Characters starting no separator are
accumulated.  `fuel` only serves termination and always suffices. -/
def scanGo : Nat → List Char → List Char → List Seg
  | 0, _, _ => []
  | f + 1, cs, cur =>
    match cs with
    | [] => [Seg.field ⟨cur⟩]
    | c :: rest =>
      if c = '.' then Seg.field ⟨cur⟩ :: scanGo f rest []
      else if c = '[' then
        match tryRun (c :: rest) with
        | some (ns, rest1) =>
          Seg.field ⟨cur⟩ ::
            (ns.map Seg.index ++
              match rest1 with
              | [] => []
              | _ :: rest2 => scanGo f rest2 [])
        | none => scanGo f rest (cur ++ [c])
      else scanGo f rest (cur ++ [c])

/-- `_parse_key` on an actual string. -/
def parseKeyStr (s : String) : List Seg := scanGo (s.data.length + 1) s.data []

/-! ### Key-path unparsing (`_unparse_key`) -/

/-- Render one segment: a bare name when nothing has been rendered yet, a
dotted name otherwise, and a bracketed integer for an index. -/
def renderSeg (first : Bool) : Seg → List Char
  | .field s => (if first then [] else ['.']) ++ s.data
  | .index n => '[' :: (decRepr n ++ [']'])

def renderTail : List Seg → List Char
  | [] => []
  | sg :: rest => renderSeg false sg ++ renderTail rest

/-- `_unparse_key`: reconstruct a flat-key string from a parsed path. -/
def unparseKey (p : List Seg) : String :=
  match p with
  | [] => ⟨[]⟩
  | sg :: rest => ⟨renderSeg true sg ++ renderTail rest⟩

/-! ### Errors and input keys -/

/-- The node type named in conflict messages (`_node_type`): the holder's
variant for holder references, terminal for every other value. -/
inductive NodeType where
  | dict | list | terminal
deriving DecidableEq, Repr

/-- Raised errors: `TypeError` for non-string keys, and `ValueError`
conflicts carrying the previously established node type, the newly
required node type, and the offending key text. -/
inductive PyErr where
  | typeError (msg : String)
  | conflict (prior : NodeType) (wanted : NodeType) (key : String)
deriving DecidableEq, Repr

/-- Input keys: strings, or some non-string object. -/
inductive RawKey where
  | str (s : String)
  | other (n : Int)
deriving DecidableEq, Repr

/-- `_parse_key` including its type check on the key. -/
def parseKeyRaw : RawKey → Except PyErr (List Seg)
  | .str s => .ok (parseKeyStr s)
  | .other _ => .error (.typeError "keys must be strings")

/-! ### Holder nodes and builder state -/

inductive HolderKind where
  | dict | list
deriving DecidableEq, Repr

mutual
/-- A value stored in a slot: a terminal, a reference to a holder node in
the arena, or a materialized ordered mapping or list. -/
inductive Node where
  | term (t : Term)
  | ref (id : Nat)
  | dictV (entries : EList)
  | listV (entries : NList)
deriving DecidableEq
/-- A list of nodes (a materialized Python list). -/
inductive NList where
  | nil
  | cons (n : Node) (rest : NList)
deriving DecidableEq
/-- An ordered mapping from segments to nodes (an `OrderedDict`). -/
inductive EList where
  | nil
  | cons (k : Seg) (n : Node) (rest : EList)
deriving DecidableEq
end

/-- Ordered-mapping lookup. -/
def elGet : EList → Seg → Option Node
  | .nil, _ => none
  | .cons k n rest, key => if k = key then some n else elGet rest key

/-- Ordered-mapping assignment: replace in place when the key exists,
append otherwise (`OrderedDict.__setitem__`). -/
def elSet : EList → Seg → Node → EList
  | .nil, key, v => .cons key v .nil
  | .cons k n rest, key, v =>
    if k = key then .cons key v rest else .cons k n (elSet rest key v)

def elKeys : EList → List Seg
  | .nil => []
  | .cons k _ rest => k :: elKeys rest

def elPairs : EList → List (Seg × Node)
  | .nil => []
  | .cons k n rest => (k, n) :: elPairs rest

/-- Structural induction over the ordered mapping alone (the generic
eliminator of the mutual inductive family is inconvenient here). -/
def elInduction {motive : EList → Prop} (hnil : motive .nil)
    (hcons : ∀ k n rest, motive rest → motive (.cons k n rest)) : ∀ d, motive d
  | .nil => hnil
  | .cons k n rest => hcons k n rest (elInduction hnil hcons rest)

/-- A holder node: its variant (fixed at creation), the flat-key prefix it
was created for (diagnostics only), and its ordered backing data. -/
structure Holder where
  kind : HolderKind
  flatKey : String
  data : EList
deriving DecidableEq

/-- A parent object: the root mapping or a holder node in the arena. -/
inductive ObjRef where
  | root
  | node (id : Nat)
deriving DecidableEq, Repr

/-- Builder state: the root mapping, the arena of holder nodes in creation
order (a reference `Node.ref i` denotes the i-th entry), and the record
list of (parent object, key) slots holding the created holders. -/
structure BState where
  root : EList
  arena : List Holder
  holders : List (ObjRef × Seg)
deriving DecidableEq

def initState : BState := ⟨.nil, [], []⟩

def objData (st : BState) : ObjRef → EList
  | .root => st.root
  | .node i =>
    match st.arena.get? i with
    | some h => h.data
    | none => .nil

/-- Write a slot of a parent object (in-place mutation of the aliased
dictionary in the source). -/
def setSlot (st : BState) (o : ObjRef) (key : Seg) (v : Node) : BState :=
  match o with
  | .root => { st with root := elSet st.root key v }
  | .node i =>
    match st.arena.get? i with
    | some h => { st with arena := st.arena.set i { h with data := elSet h.data key v } }
    | none => st

/-! ### The container builder (`unflatten`) -/

/-- The holder variant demanded by the type of the next path segment. -/
def holderKindOf : Seg → HolderKind
  | .field _ => .dict
  | .index _ => .list

def kindNT : HolderKind → NodeType
  | .dict => .dict
  | .list => .list

/-- `_node_type`: the holder's variant for live holder references,
terminal for everything else. -/
def nodeTypeOf (st : BState) : Node → NodeType
  | .ref i =>
    match st.arena.get? i with
    | some h => kindNT h.kind
    | none => .terminal
  | _ => .terminal

/-- `isinstance(node, holder_type)`: a live holder reference of the
demanded variant, returning its arena id. -/
def refKindMatches (st : BState) (n : Node) (hk : HolderKind) : Option Nat :=
  match n with
  | .ref i =>
    match st.arena.get? i with
    | some h => if h.kind = hk then some i else none
    | none => none
  | _ => none

/-- Create a fresh holder of the given kind tagged with the given flat-key
prefix, install its reference at the given slot, and record the slot for
later finalization. -/
def grow (st : BState) (o : ObjRef) (key : Seg) (hk : HolderKind) (fk : String) : BState :=
  { st with arena := st.arena ++ [⟨hk, fk, .nil⟩], holders := st.holders ++ [(o, key)] }

def addHolder (st : BState) (o : ObjRef) (key : Seg) (hk : HolderKind) (fk : String) :
    BState × Nat :=
  (setSlot (grow st o key hk fk) o key (.ref st.arena.length), st.arena.length)

/-- The walk over the intermediate segments: the loop over
`zip(parsed_key, parsed_key[1:])` with `depth` counted from 1, the cursor
`o` starting at the root.  Missing slots get fresh holders; existing
slots must be holders of the demanded variant, else a conflict error
naming the unparsed prefix `full.take depth` is raised. -/
def buildInters : BState → ObjRef → List Seg → Nat → List Seg →
    Except PyErr (BState × ObjRef)
  | st, o, key :: next :: rest, depth, full =>
    let hk := holderKindOf next
    match elGet (objData st o) key with
    | none =>
      let p := addHolder st o key hk (unparseKey (full.take depth))
      buildInters p.1 (.node p.2) (next :: rest) (depth + 1) full
    | some nd =>
      match refKindMatches st nd hk with
      | some j => buildInters st (.node j) (next :: rest) (depth + 1) full
      | none =>
        .error (.conflict (nodeTypeOf st nd) (kindNT hk) (unparseKey (full.take depth)))
  | st, o, _, _, _ => .ok (st, o)

/-- The final segment: fail when the slot already holds a holder
reference (naming the raw flat key), otherwise assign the value. -/
def setLast (st : BState) (o : ObjRef) (flatKey : String) (last : Seg) (v : Term) :
    Except PyErr BState :=
  match elGet (objData st o) last with
  | some (.ref j) => .error (.conflict (nodeTypeOf st (.ref j)) .terminal flatKey)
  | _ => .ok (setSlot st o last (.term v))

/-- Walk the intermediate segments then set the final one. -/
def processPath (st : BState) (o : ObjRef) (path : List Seg) (depth : Nat)
    (full : List Seg) (flatKey : String) (v : Term) : Except PyErr BState :=
  match buildInters st o path depth full with
  | .error e => .error e
  | .ok (st1, o1) => setLast st1 o1 flatKey (path.getLastD (.field "")) v

/-- Process one (key, value) pair of the input. -/
def processPair (st : BState) : RawKey × Term → Except PyErr BState
  | (.str s, v) => processPath st .root (parseKeyStr s) 1 (parseKeyStr s) s v
  | (.other _, _) => .error (.typeError "keys must be strings")

/-- The loop over all input pairs; the first error aborts the call. -/
def buildAll : BState → List (RawKey × Term) → Except PyErr BState
  | st, [] => .ok st
  | st, pr :: rest =>
    match processPair st pr with
    | .error e => .error e
    | .ok st1 => buildAll st1 rest

/-! ### The materializer (`getvalue`) -/

/-- Sort key of a sequence holder's entry.  For every state the builder
can reach, a sequence holder's keys are all index segments (proved
below), so the field case is never hit there. -/
def segNat : Seg → Nat
  | .index n => n
  | .field _ => 0

/-- The walk of `_list_holder.getvalue` over the sorted entries with the
enumerate counter `n`: one single empty ordered mapping is appended
whenever the entry's key differs from `n`, then the value itself. -/
def lv : Nat → List (Nat × Node) → NList
  | _, [] => .nil
  | n, (key, val) :: rest =>
    if key = n then .cons val (lv (n + 1) rest)
    else .cons (.dictV .nil) (.cons val (lv (n + 1) rest))

/-- The assertion guarding the gap branch (`assert key > n` whenever
`key != n`), folded over the whole walk: equivalently `n ≤ key` at each
step. -/
def lvAssertOk : Nat → List (Nat × Node) → Bool
  | _, [] => true
  | n, (key, _) :: rest => decide (n ≤ key) && lvAssertOk (n + 1) rest

/-- `sorted(self.data.items(), key=itemgetter(0))` (a stable sort). -/
def sortedItems (d : EList) : List (Nat × Node) :=
  List.insertionSort (fun a b => a.1 ≤ b.1) ((elPairs d).map (fun q => (segNat q.1, q.2)))

/-- Materialize a holder: a mapping holder yields its backing data, a
sequence holder the dense list built from its sorted entries. -/
def getvalue (h : Holder) : Node :=
  match h.kind with
  | .dict => .dictV h.data
  | .list => .listV (lv 0 (sortedItems h.data))

/-- One finalization step, `obj[key] = obj[key].getvalue()`: replace the
recorded slot's holder reference with the holder's materialized value.
(The slot always holds a live reference for reachable states.) -/
def finalizeHolder (st : BState) (e : ObjRef × Seg) : BState :=
  match elGet (objData st e.1) e.2 with
  | some (.ref i) =>
    match st.arena.get? i with
    | some h => setSlot st e.1 e.2 (getvalue h)
    | none => st
  | _ => st

/-- `unflatten` over an explicit list of (key, value) pairs (a mapping
argument contributes its pairs in its own iteration order): build, then
finalize every recorded holder slot in reverse creation order, then
return the root mapping. -/
def unflattenL (pairs : List (RawKey × Term)) : Except PyErr EList :=
  match buildAll initState pairs with
  | .error e => .error e
  | .ok st => .ok (st.holders.reverse.foldl finalizeHolder st).root

/-! ### Reference-freeness of materialized values -/

/-- Equality of results is decidable (used to evaluate concrete runs). -/
instance instDecEqExceptEL : DecidableEq (Except PyErr EList) := fun a b =>
  match a, b with
  | .ok x, .ok y => decidable_of_iff (x = y) (by simp)
  | .error x, .error y => decidable_of_iff (x = y) (by simp)
  | .ok _, .error _ => isFalse (by simp)
  | .error _, .ok _ => isFalse (by simp)

/-- The key text referenced by a conflict error result, if any. -/
def errConflictKey : Except PyErr EList → Option String
  | .error (.conflict _ _ k) => some k
  | _ => none

/-- Whether a result is a `TypeError`-class failure. -/
def isTypeError : Except PyErr EList → Bool
  | .error (.typeError _) => true
  | _ => false

mutual
/-- A node that contains no holder reference anywhere. -/
def nodeRefFree : Node → Bool
  | .term _ => true
  | .ref _ => false
  | .dictV es => elRefFree es
  | .listV es => nlRefFree es
def nlRefFree : NList → Bool
  | .nil => true
  | .cons n rest => nodeRefFree n && nlRefFree rest
def elRefFree : EList → Bool
  | .nil => true
  | .cons _ n rest => nodeRefFree n && elRefFree rest
end

/-! ### Auxiliary notions for the parser proofs -/

/-- The scanner with its canonical (always sufficient) fuel. -/
def scanL (cs cur : List Char) : List Seg := scanGo (cs.length + 1) cs cur

/-- The input is one maximal nonempty bracket-group run reaching its end. -/
def RunToEnd (u : List Char) : Prop :=
  (parseRun u).1 ≠ [] ∧ (parseRun u).2 = []

/-- A well-behaved token text: no dot, and no suffix that is a complete
bracket-group run.  Every token the scanner flushes satisfies this, and
it is exactly what makes re-parsing an unparsed path faithful. -/
def GoodChars (l : List Char) : Prop :=
  '.' ∉ l ∧ ∀ u, u <:+ l → ¬ RunToEnd u

/-- Shapes a rendered segment tail can start with. -/
def ContOK (c : List Char) : Prop :=
  c = [] ∨ (∃ t, c = '.' :: t) ∨ (∃ t, c = '[' :: t)

/-- Shapes of the remaining input at a point where the scanner flushes
its current token: end of input, a dot, or a matched bracket run. -/
def FlushCtx (cs : List Char) : Prop :=
  cs = [] ∨ (∃ t, cs = '.' :: t) ∨ (∃ ns r1, tryRun cs = some (ns, r1))

/-- Split the leading index segments off a parsed path. -/
def takeIdx : List Seg → List Nat × List Seg
  | .index n :: rest =>
    let p := takeIdx rest
    (n :: p.1, p.2)
  | p => ([], p)

/-- A parent reference that actually exists in the state. -/
def ValidO (st : BState) : ObjRef → Prop
  | .root => True
  | .node i => i < st.arena.length

/-- The cursor invariant of the builder's walk: when the cursor is a
holder node, the segment about to index it fits the holder's variant. -/
def CursorFit (st : BState) (o : ObjRef) (k : Seg) : Prop :=
  ∀ m, o = ObjRef.node m → ∀ h, st.arena.get? m = some h → holderKindOf k = h.kind

/-- How the state extends when the walk processes a fresh path under the
slot `(o, k)`: the arena only grows, the kinds of existing holders are
unchanged, and every slot of a pre-existing object other than `(o, k)` is
untouched. -/
structure PExt (st st' : BState) (o : ObjRef) (k : Seg) : Prop where
  alen : st.arena.length ≤ st'.arena.length
  kinds : ∀ j h, st.arena.get? j = some h →
    ∃ h', st'.arena.get? j = some h' ∧ h'.kind = h.kind
  frame : ∀ (o' : ObjRef) (k' : Seg), ValidO st o' → ¬(o' = o ∧ k' = k) →
    elGet (objData st' o') k' = elGet (objData st o') k'

/-- The structural invariant of reachable builder states: the record list
matches the arena; each recorded slot holds the reference to its holder;
references appear exactly at their recorded slot; a holder's parent was
created before it; construction-time slots are terminals or references;
references point into the arena; per-object keys are distinct; the keys
stored in a holder fit its variant. -/
structure Inv (st : BState) : Prop where
  hlen : st.holders.length = st.arena.length
  slot_entry : ∀ i e, st.holders.get? i = some e →
    elGet (objData st e.1) e.2 = some (Node.ref i)
  ref_entry : ∀ (o : ObjRef) (k : Seg) (j : Nat),
    elGet (objData st o) k = some (Node.ref j) → st.holders.get? j = some (o, k)
  parent_lt : ∀ j i k, st.holders.get? j = some (ObjRef.node i, k) → i < j
  slots_simple : ∀ (o : ObjRef) (k : Seg) (n : Node), elGet (objData st o) k = some n →
    (∃ t, n = Node.term t) ∨ ∃ j, n = Node.ref j
  ref_lt : ∀ (o : ObjRef) (k : Seg) (j : Nat),
    elGet (objData st o) k = some (Node.ref j) → j < st.arena.length
  keys_nodup : ∀ o : ObjRef, (elKeys (objData st o)).Nodup
  kind_keys : ∀ i h, st.arena.get? i = some h → ∀ k n, elGet h.data k = some n →
    holderKindOf k = h.kind

/-- The invariant maintained while finalizing the recorded holders in
reverse creation order: entries with index `≥ bound` have already been
replaced by materialized, reference-free values, entries `< bound` still
hold their reference, and every remaining reference is below `bound` and
sits at its recorded slot. -/
structure FinInv (holders0 : List (ObjRef × Seg)) (bound : Nat) (st : BState) : Prop where
  flen : st.arena.length = holders0.length
  refs_bound : ∀ (o : ObjRef) (k : Seg) (j : Nat),
    elGet (objData st o) k = some (Node.ref j) →
      j < bound ∧ holders0.get? j = some (o, k)
  pending : ∀ j e, j < bound → holders0.get? j = some e →
    elGet (objData st e.1) e.2 = some (Node.ref j)
  slots_ok : ∀ (o : ObjRef) (k : Seg) (n : Node), elGet (objData st o) k = some n →
    (∃ j, n = Node.ref j) ∨ nodeRefFree n = true
  nodupF : ∀ o : ObjRef, (elKeys (objData st o)).Nodup

/-- What every builder step preserves: established holder references stay
in place, and existing holders keep their variant.  (References are only
ever written into empty slots, and the final-segment write only replaces
empty or terminal slots.) -/
def Preserve (st st' : BState) : Prop :=
  (∀ (o : ObjRef) (k : Seg) (j : Nat), elGet (objData st o) k = some (.ref j) →
    elGet (objData st' o) k = some (.ref j)) ∧
  (∀ j h, st.arena.get? j = some h →
    ∃ h', st'.arena.get? j = some h' ∧ h'.kind = h.kind)

/-- Two parsed-path tails one of which strictly extends the other. -/
def Related (tl tl2 : List Seg) : Prop :=
  (∃ r, r ≠ [] ∧ tl2 = tl ++ r) ∨ ∃ r, r ≠ [] ∧ tl = tl2 ++ r

/-! ## Parser lemmas -/

theorem parseGroup_not_bracket {c : Char} {rest : List Char} (hc : c ≠ '[') :
    parseGroup (c :: rest) = none := by
  simp only [parseGroup, if_neg hc]

theorem parseGroup_elim {cs r : List Char} {n : Nat} (h : parseGroup cs = some (n, r)) :
    ∃ ds, cs = '[' :: (ds ++ ']' :: r) ∧ ds ≠ [] ∧ (∀ c ∈ ds, c.isDigit) ∧
      n = natOfDigits ds := by
  rcases cs with _ | ⟨c, rest⟩
  · exact absurd h (by simp [parseGroup])
  · simp only [parseGroup] at h
    by_cases hc : c = '['
    case neg => rw [if_neg hc] at h; exact absurd h (by simp)
    rw [if_pos hc] at h; subst hc
    rcases hdw : rest.dropWhile Char.isDigit with _ | ⟨d, dr⟩ <;> rw [hdw] at h
    · exact absurd h (by simp)
    · dsimp only at h
      by_cases hd : d = ']'
      case neg => rw [if_neg hd] at h; exact absurd h (by simp)
      rw [if_pos hd] at h; subst hd
      by_cases he : (rest.takeWhile Char.isDigit).isEmpty
      · rw [if_pos he] at h; exact absurd h (by simp)
      · rw [if_neg he] at h
        simp only [Option.some.injEq, Prod.mk.injEq] at h
        obtain ⟨rfl, rfl⟩ := h
        refine ⟨rest.takeWhile Char.isDigit, ?_, by simpa using he,
          fun c hm => List.mem_takeWhile_imp hm, rfl⟩
        conv_lhs =>
          rw [← @List.takeWhile_append_dropWhile _ Char.isDigit rest, hdw]

theorem parseGroup_length {cs r : List Char} {n : Nat} (h : parseGroup cs = some (n, r)) :
    r.length + 3 ≤ cs.length := by
  obtain ⟨ds, rfl, hne, -, -⟩ := parseGroup_elim h
  have : ds.length ≥ 1 := by
    rcases ds with _ | _
    · exact absurd rfl hne
    · simp
  simp only [List.length_cons, List.length_append]
  omega

theorem parseGroup_suffix {cs r : List Char} {n : Nat} (h : parseGroup cs = some (n, r)) :
    r <:+ cs := by
  obtain ⟨ds, rfl, -, -, -⟩ := parseGroup_elim h
  exact ⟨'[' :: (ds ++ [']']), by simp⟩

theorem parseRunGo_succ (f : Nat) (cs : List Char) :
    parseRunGo (f + 1) cs =
      match parseGroup cs with
      | some (n, r) => (n :: (parseRunGo f r).1, (parseRunGo f r).2)
      | none => ([], cs) := rfl

theorem parseRunGo_congr : ∀ f g cs, cs.length < f → cs.length < g →
    parseRunGo f cs = parseRunGo g cs := by
  intro f
  induction f with
  | zero => intro g cs h; omega
  | succ f ih =>
    intro g cs hf hg
    match g, hg with
    | g + 1, hg =>
      rw [parseRunGo_succ, parseRunGo_succ]
      rcases hpg : parseGroup cs with _ | ⟨n, r⟩
      · rfl
      · have hl := parseGroup_length hpg
        dsimp only
        rw [ih g r (by omega) (by omega)]

theorem parseRun_none {cs : List Char} (h : parseGroup cs = none) :
    parseRun cs = ([], cs) := by
  rw [parseRun, parseRunGo_succ, h]

theorem parseRun_group {cs r : List Char} {n : Nat} (h : parseGroup cs = some (n, r)) :
    parseRun cs = (n :: (parseRun r).1, (parseRun r).2) := by
  have hl := parseGroup_length h
  rw [parseRun, parseRun, parseRunGo_succ, h]
  dsimp only
  rw [parseRunGo_congr cs.length (r.length + 1) r (by omega) (by omega)]

theorem parseRun_fst_nil {cs : List Char} (h : (parseRun cs).1 = []) :
    parseRun cs = ([], cs) := by
  rcases hpg : parseGroup cs with _ | ⟨n, r⟩
  · exact parseRun_none hpg
  · rw [parseRun_group hpg] at h; simp at h

theorem parseRun_suffix (cs : List Char) : (parseRun cs).2 <:+ cs := by
  suffices h : ∀ m : Nat, ∀ cs : List Char, cs.length ≤ m → (parseRun cs).2 <:+ cs from
    h cs.length cs le_rfl
  intro m
  induction m with
  | zero =>
    intro cs hl
    have hnil : cs = [] := by cases cs <;> simp_all
    subst hnil
    rw [parseRun_none (show parseGroup [] = none from rfl)]
  | succ m ih =>
    intro cs hl
    rcases hpg : parseGroup cs with _ | ⟨n, r⟩
    · rw [parseRun_none hpg]
    · rw [parseRun_group hpg]
      have h2 := parseGroup_length hpg
      exact (ih r (by omega)).trans (parseGroup_suffix hpg)

theorem parseRun_length_le (cs : List Char) : (parseRun cs).2.length ≤ cs.length :=
  (parseRun_suffix cs).length_le

theorem parseRun_length_lt {cs : List Char} (h : (parseRun cs).1 ≠ []) :
    (parseRun cs).2.length + 3 ≤ cs.length := by
  rcases hpg : parseGroup cs with _ | ⟨m, r⟩
  · rw [parseRun_none hpg] at h; simp at h
  · rw [parseRun_group hpg]
    have h1 := parseRun_length_le r
    have h2 := parseGroup_length hpg
    dsimp only
    omega

theorem tryRun_eq {cs rest1 : List Char} {ns : List Nat}
    (h : tryRun cs = some (ns, rest1)) :
    parseRun cs = (ns, rest1) ∧ ns ≠ [] ∧ (rest1 = [] ∨ ∃ t, rest1 = '.' :: t) := by
  unfold tryRun at h
  rcases hpr : parseRun cs with ⟨ms, r⟩
  rw [hpr] at h
  dsimp only at h
  by_cases hm : ms.isEmpty
  · rw [if_pos hm] at h; exact absurd h (by simp)
  · rw [if_neg hm] at h
    rcases r with _ | ⟨c, t⟩
    · dsimp only at h
      simp only [Option.some.injEq, Prod.mk.injEq] at h
      obtain ⟨rfl, rfl⟩ := h
      exact ⟨rfl, by simpa using hm, Or.inl rfl⟩
    · dsimp only at h
      by_cases hc : c = '.'
      · rw [if_pos hc] at h
        simp only [Option.some.injEq, Prod.mk.injEq] at h
        obtain ⟨rfl, rfl⟩ := h
        subst hc
        exact ⟨rfl, by simpa using hm, Or.inr ⟨t, rfl⟩⟩
      · rw [if_neg hc] at h; exact absurd h (by simp)

theorem tryRun_length {cs rest1 : List Char} {ns : List Nat}
    (h : tryRun cs = some (ns, rest1)) : rest1.length + 3 ≤ cs.length := by
  obtain ⟨h1, h2, -⟩ := tryRun_eq h
  have h3 := @parseRun_length_lt cs (by rw [h1]; simpa using h2)
  rw [h1] at h3
  exact h3

theorem tryRun_not_bracket {c : Char} {rest : List Char} (h : c ≠ '[') :
    tryRun (c :: rest) = none := by
  unfold tryRun
  rw [parseRun_none (parseGroup_not_bracket h)]
  simp

theorem scanGo_succ (f : Nat) (cs cur : List Char) :
    scanGo (f + 1) cs cur =
      match cs with
      | [] => [Seg.field ⟨cur⟩]
      | c :: rest =>
        if c = '.' then Seg.field ⟨cur⟩ :: scanGo f rest []
        else if c = '[' then
          match tryRun (c :: rest) with
          | some (ns, rest1) =>
            Seg.field ⟨cur⟩ ::
              (ns.map Seg.index ++
                match rest1 with
                | [] => []
                | _ :: rest2 => scanGo f rest2 [])
          | none => scanGo f rest (cur ++ [c])
        else scanGo f rest (cur ++ [c]) := rfl

theorem scanGo_congr : ∀ f g cs cur, cs.length < f → cs.length < g →
    scanGo f cs cur = scanGo g cs cur := by
  intro f
  induction f with
  | zero => intro g cs cur h; omega
  | succ f ih =>
    intro g cs cur hf hg
    match g, hg with
    | g + 1, hg =>
      rw [scanGo_succ, scanGo_succ]
      rcases cs with _ | ⟨c, rest⟩
      · rfl
      · simp only [List.length_cons] at hf hg
        dsimp only
        by_cases hc : c = '.'
        · rw [if_pos hc, if_pos hc, ih g rest [] (by omega) (by omega)]
        · rw [if_neg hc, if_neg hc]
          by_cases hb : c = '['
          · rw [if_pos hb, if_pos hb]
            rcases htr : tryRun (c :: rest) with _ | ⟨ns, rest1⟩
            · dsimp only
              rw [ih g rest (cur ++ [c]) (by omega) (by omega)]
            · dsimp only
              rcases rest1 with _ | ⟨x, rest2⟩
              · rfl
              · dsimp only
                have hl := tryRun_length htr
                simp only [List.length_cons] at hl
                rw [ih g rest2 [] (by omega) (by omega)]
          · rw [if_neg hb, if_neg hb]
            rw [ih g rest (cur ++ [c]) (by omega) (by omega)]

theorem scanL_nil (cur : List Char) : scanL [] cur = [Seg.field ⟨cur⟩] := rfl

theorem scanL_dot (rest cur : List Char) :
    scanL ('.' :: rest) cur = Seg.field ⟨cur⟩ :: scanL rest [] := by
  unfold scanL
  simp only [List.length_cons]
  rw [scanGo_succ]
  dsimp only
  rw [if_pos rfl]

theorem scanL_run_nil {rest : List Char} {ns : List Nat}
    (h : tryRun ('[' :: rest) = some (ns, [])) (cur : List Char) :
    scanL ('[' :: rest) cur = Seg.field ⟨cur⟩ :: ns.map Seg.index := by
  unfold scanL
  simp only [List.length_cons]
  rw [scanGo_succ]
  dsimp only
  rw [if_neg (by decide : ¬('[' : Char) = '.'), if_pos rfl]
  simp only [h]
  simp

theorem scanL_run_cons {rest rest2 : List Char} {x : Char} {ns : List Nat}
    (h : tryRun ('[' :: rest) = some (ns, x :: rest2)) (cur : List Char) :
    scanL ('[' :: rest) cur = Seg.field ⟨cur⟩ :: (ns.map Seg.index ++ scanL rest2 []) := by
  unfold scanL
  simp only [List.length_cons]
  rw [scanGo_succ]
  dsimp only
  rw [if_neg (by decide : ¬('[' : Char) = '.'), if_pos rfl]
  simp only [h]
  have hl := tryRun_length h
  simp only [List.length_cons] at hl
  rw [scanGo_congr (rest.length + 1) (rest2.length + 1) rest2 [] (by omega) (by omega)]

theorem scanL_other {c : Char} {rest : List Char} (h1 : c ≠ '.')
    (h2 : tryRun (c :: rest) = none) (cur : List Char) :
    scanL (c :: rest) cur = scanL rest (cur ++ [c]) := by
  unfold scanL
  simp only [List.length_cons]
  rw [scanGo_succ]
  dsimp only
  rw [if_neg h1]
  by_cases hb : c = '['
  · rw [if_pos hb, h2]
  · rw [if_neg hb]

theorem parseKeyStr_eq_scanL (s : String) : parseKeyStr s = scanL s.data [] := rfl

/-! ## Decimal rendering lemmas -/

theorem digitChar_isDigit (k : Nat) : (digitChar k).isDigit = true := by
  match k with
  | 0 | 1 | 2 | 3 | 4 | 5 | 6 | 7 | 8 => decide
  | n + 9 => rfl

theorem digitChar_val (k : Nat) (h : k < 10) : (digitChar k).toNat - 48 = k := by
  interval_cases k <;> decide

theorem decGo_succ (f n : Nat) (acc : List Char) :
    decGo (f + 1) n acc =
      if n < 10 then digitChar n :: acc
      else decGo f (n / 10) (digitChar (n % 10) :: acc) := rfl

theorem decGo_congr : ∀ f g n acc, n < f → n < g → decGo f n acc = decGo g n acc := by
  intro f
  induction f with
  | zero => intro g n acc h; omega
  | succ f ih =>
    intro g n acc hf hg
    match g, hg with
    | g + 1, hg =>
      rw [decGo_succ, decGo_succ]
      by_cases h10 : n < 10
      · rw [if_pos h10, if_pos h10]
      · rw [if_neg h10, if_neg h10]
        exact ih g (n / 10) _ (by omega) (by omega)

theorem decGo_acc : ∀ f n acc, decGo f n acc = decGo f n [] ++ acc := by
  intro f
  induction f with
  | zero => intro n acc; rfl
  | succ f ih =>
    intro n acc
    rw [decGo_succ, decGo_succ]
    by_cases h10 : n < 10
    · rw [if_pos h10, if_pos h10]; rfl
    · rw [if_neg h10, if_neg h10,
        ih (n / 10) (digitChar (n % 10) :: acc), ih (n / 10) [digitChar (n % 10)]]
      simp

theorem decRepr_lt {n : Nat} (h : n < 10) : decRepr n = [digitChar n] := by
  unfold decRepr
  rw [decGo_succ, if_pos h]

theorem decRepr_step {n : Nat} (h : 10 ≤ n) :
    decRepr n = decRepr (n / 10) ++ [digitChar (n % 10)] := by
  unfold decRepr
  rw [decGo_succ, if_neg (by omega), decGo_acc]
  congr 1
  exact decGo_congr n (n / 10 + 1) (n / 10) [] (Nat.div_lt_self (by omega) (by omega))
    (by omega)

theorem decRepr_ne_nil (n : Nat) : decRepr n ≠ [] := by
  by_cases h : n < 10
  · rw [decRepr_lt h]; simp
  · rw [decRepr_step (by omega)]; simp

theorem decRepr_digits (n : Nat) : ∀ c ∈ decRepr n, c.isDigit = true := by
  induction n using Nat.strong_induction_on with
  | _ n ih =>
    by_cases h : n < 10
    · rw [decRepr_lt h]
      intro c hc
      rw [List.mem_singleton] at hc
      subst hc
      exact digitChar_isDigit n
    · rw [decRepr_step (by omega)]
      intro c hc
      rcases List.mem_append.mp hc with h1 | h2
      · exact ih (n / 10) (Nat.div_lt_self (by omega) (by omega)) c h1
      · rw [List.mem_singleton] at h2
        subst h2
        exact digitChar_isDigit (n % 10)

theorem natOfDigits_snoc (a : List Char) (c : Char) :
    natOfDigits (a ++ [c]) = natOfDigits a * 10 + (c.toNat - 48) := by
  unfold natOfDigits
  rw [List.foldl_append]
  rfl

theorem natOfDigits_decRepr (n : Nat) : natOfDigits (decRepr n) = n := by
  induction n using Nat.strong_induction_on with
  | _ n ih =>
    by_cases h : n < 10
    · rw [decRepr_lt h]
      show natOfDigits ([] ++ [digitChar n]) = n
      rw [natOfDigits_snoc, digitChar_val n h]
      have h0 : natOfDigits [] = 0 := rfl
      omega
    · rw [decRepr_step (by omega), natOfDigits_snoc,
        ih (n / 10) (Nat.div_lt_self (by omega) (by omega)), digitChar_val (n % 10) (by omega)]
      omega

/-! ## Splitting lemmas for group runs -/

theorem takeWhile_all_prefix {p : Char → Bool} :
    ∀ ds : List Char, (∀ c ∈ ds, p c = true) → ∀ x t, p x = false →
      (ds ++ x :: t).takeWhile p = ds ∧ (ds ++ x :: t).dropWhile p = x :: t := by
  intro ds
  induction ds with
  | nil =>
    intro h x t hx
    constructor
    · simp [List.takeWhile_cons, hx]
    · simp [List.dropWhile_cons, hx]
  | cons d dr ih =>
    intro h x t hx
    have hd : p d = true := h d (by simp)
    have hr := ih (fun c hc => h c (by simp [hc])) x t hx
    constructor
    · simp [List.takeWhile_cons, hd, hr.1]
    · simp [List.dropWhile_cons, hd, hr.2]

theorem dropWhile_head_false {p : Char → Bool} :
    ∀ (l : List Char) (d : Char) (dr : List Char), l.dropWhile p = d :: dr → p d = false := by
  intro l
  induction l with
  | nil => intro d dr h; simp at h
  | cons a t ih =>
    intro d dr h
    by_cases ha : p a
    · rw [List.dropWhile_cons, if_pos ha] at h
      exact ih d dr h
    · rw [List.dropWhile_cons, if_neg ha] at h
      injection h with h1 _
      subst h1
      simpa using ha

theorem parseGroup_render (n : Nat) (w : List Char) :
    parseGroup ('[' :: (decRepr n ++ ']' :: w)) = some (n, w) := by
  have h := takeWhile_all_prefix (decRepr n) (decRepr_digits n) ']' w (by decide)
  unfold parseGroup
  dsimp only
  rw [if_pos rfl, h.2]
  dsimp only
  rw [if_pos rfl, h.1, if_neg (by simpa [List.isEmpty_iff] using decRepr_ne_nil n),
    natOfDigits_decRepr n]

theorem parseGroup_append {u r : List Char} {n : Nat} (h : parseGroup u = some (n, r))
    (w : List Char) : parseGroup (u ++ w) = some (n, r ++ w) := by
  obtain ⟨ds, rfl, hne, hdig, rfl⟩ := parseGroup_elim h
  have h2 := takeWhile_all_prefix ds hdig ']' (r ++ w) (by decide)
  have he : ('[' :: (ds ++ ']' :: r)) ++ w = '[' :: (ds ++ ']' :: (r ++ w)) := by simp
  rw [he]
  unfold parseGroup
  dsimp only
  rw [if_pos rfl, h2.2]
  dsimp only
  rw [if_pos rfl, h2.1, if_neg (by simpa [List.isEmpty_iff] using hne)]

theorem parseGroup_none_append {u : List Char} (hu : u ≠ []) (h : parseGroup u = none)
    {C : List Char} (hC : ContOK C) : parseGroup (u ++ C) = none := by
  rcases u with _ | ⟨c, rest⟩
  · exact absurd rfl hu
  · by_cases hc : c = '['
    · subst hc
      unfold parseGroup at h
      dsimp only at h
      rw [if_pos rfl] at h
      have hcons : ('[' :: rest) ++ C = '[' :: (rest ++ C) := rfl
      rw [hcons]
      unfold parseGroup
      dsimp only
      rw [if_pos rfl]
      rcases hdw : rest.dropWhile Char.isDigit with _ | ⟨d, dr⟩
      · have hdrop : (rest ++ C).dropWhile Char.isDigit = C.dropWhile Char.isDigit := by
          rw [List.dropWhile_append, hdw]
          simp
        rw [hdrop]
        rcases hC with rfl | ⟨t, rfl⟩ | ⟨t, rfl⟩
        · rfl
        · rw [List.dropWhile_cons, if_neg (by decide)]
          dsimp only
          rw [if_neg (by decide)]
        · rw [List.dropWhile_cons, if_neg (by decide)]
          dsimp only
          rw [if_neg (by decide)]
      · rw [hdw] at h
        dsimp only at h
        have hd := dropWhile_head_false rest d dr hdw
        have hsplit : rest = rest.takeWhile Char.isDigit ++ d :: dr := by
          conv_lhs => rw [← @List.takeWhile_append_dropWhile _ Char.isDigit rest,
            hdw]
        have h3 := takeWhile_all_prefix (rest.takeWhile Char.isDigit)
          (fun c hc =>
            List.mem_takeWhile_imp (show c ∈ rest.takeWhile Char.isDigit from hc))
          d (dr ++ C) hd
        have hdrop : (rest ++ C).dropWhile Char.isDigit = d :: (dr ++ C) := by
          conv_lhs => rw [hsplit, List.append_assoc, List.cons_append]
          exact h3.2
        have htake : (rest ++ C).takeWhile Char.isDigit = rest.takeWhile Char.isDigit := by
          conv_lhs => rw [hsplit, List.append_assoc, List.cons_append]
          exact h3.1
        rw [hdrop]
        dsimp only
        by_cases hd2 : d = ']'
        · subst hd2
          rw [if_pos rfl] at h ⊢
          rw [htake]
          by_cases hemp : (rest.takeWhile Char.isDigit).isEmpty
          · rw [if_pos hemp]
          · rw [if_neg hemp] at h
            exact absurd h (by simp)
        · rw [if_neg hd2] at h ⊢
    · have hcons : (c :: rest) ++ C = c :: (rest ++ C) := rfl
      rw [hcons]
      exact parseGroup_not_bracket hc

theorem parseRun_append_full : ∀ u : List Char, (parseRun u).2 = [] → ∀ w,
    parseRun (u ++ w) = ((parseRun u).1 ++ (parseRun w).1, (parseRun w).2) := by
  suffices hm : ∀ m (u : List Char), u.length ≤ m → (parseRun u).2 = [] → ∀ w,
      parseRun (u ++ w) = ((parseRun u).1 ++ (parseRun w).1, (parseRun w).2) by
    exact fun u h w => hm u.length u le_rfl h w
  intro m
  induction m with
  | zero =>
    intro u hl h2 w
    have hnil : u = [] := by cases u <;> simp_all
    subst hnil
    rw [parseRun_none (show parseGroup [] = none from rfl)]
    simp
  | succ m ih =>
    intro u hl h2 w
    rcases hpg : parseGroup u with _ | ⟨n, r⟩
    · rw [parseRun_none hpg] at h2
      subst h2
      rw [parseRun_none (show parseGroup [] = none from rfl)]
      simp
    · have hgl := parseGroup_length hpg
      rw [parseRun_group hpg] at h2 ⊢
      rw [parseRun_group (parseGroup_append hpg w)]
      dsimp only at h2 ⊢
      rw [ih r (by omega) h2 w]
      simp

theorem parseRun_append_stuck : ∀ u : List Char, (parseRun u).2 ≠ [] → ∀ C, ContOK C →
    parseRun (u ++ C) = ((parseRun u).1, (parseRun u).2 ++ C) := by
  suffices hm : ∀ m (u : List Char), u.length ≤ m → (parseRun u).2 ≠ [] → ∀ C, ContOK C →
      parseRun (u ++ C) = ((parseRun u).1, (parseRun u).2 ++ C) by
    exact fun u h C hC => hm u.length u le_rfl h C hC
  intro m
  induction m with
  | zero =>
    intro u hl h2 C hC
    have hnil : u = [] := by cases u <;> simp_all
    subst hnil
    rw [parseRun_none (show parseGroup [] = none from rfl)] at h2
    exact absurd rfl h2
  | succ m ih =>
    intro u hl h2 C hC
    rcases hpg : parseGroup u with _ | ⟨n, r⟩
    · have hpru := parseRun_none hpg
      rw [hpru] at h2
      have hu : u ≠ [] := h2
      rw [parseRun_none (parseGroup_none_append hu hpg hC), hpru]
    · have hgl := parseGroup_length hpg
      rw [parseRun_group hpg] at h2 ⊢
      rw [parseRun_group (parseGroup_append hpg C)]
      dsimp only at h2 ⊢
      rw [ih r (by omega) h2 C hC]

/-! ## The key separator-failure lemma and its converse -/

theorem tryRun_none_of_good {u : List Char} (hu : u ≠ []) (h1 : '.' ∉ u)
    (h2 : ¬ RunToEnd u) {C : List Char} (hC : ContOK C) : tryRun (u ++ C) = none := by
  have hsnd : (parseRun u).2 ≠ [] := by
    intro hs
    by_cases hf : (parseRun u).1 = []
    · have h3 := parseRun_fst_nil hf
      rw [h3] at hs
      exact hu hs
    · exact h2 ⟨hf, hs⟩
  unfold tryRun
  rw [parseRun_append_stuck u hsnd C hC]
  dsimp only
  by_cases hf : (parseRun u).1.isEmpty
  · rw [if_pos hf]
  · rw [if_neg hf]
    rcases hx : (parseRun u).2 with _ | ⟨x, xs⟩
    · exact absurd hx hsnd
    · have hxu : x ∈ u := (hx ▸ parseRun_suffix u).subset (List.mem_cons_self x xs)
      have hxd : ¬x = '.' := fun he => h1 (he ▸ hxu)
      rw [List.cons_append]
      dsimp only
      rw [if_neg hxd]

theorem tryRun_ne_none_of_runToEnd {g cs : List Char} (hg : RunToEnd g)
    (hcs : FlushCtx cs) : tryRun (g ++ cs) ≠ none := by
  obtain ⟨hne, hnil⟩ := hg
  have happ := parseRun_append_full g hnil cs
  unfold tryRun
  rw [happ]
  dsimp only
  rcases hcs with rfl | ⟨t, rfl⟩ | ⟨ns, r1, htr⟩
  · rw [parseRun_none (show parseGroup [] = none from rfl)]
    simp [List.isEmpty_iff, hne]
  · rw [parseRun_none (parseGroup_not_bracket (by decide))]
    simp [List.isEmpty_iff, hne]
  · obtain ⟨hpr, hns, hr1⟩ := tryRun_eq htr
    rw [hpr]
    rcases hr1 with rfl | ⟨t, rfl⟩
    · simp [List.isEmpty_iff, hne, hns]
    · simp [List.isEmpty_iff, hne, hns]

theorem suffix_snoc {u l : List Char} {c : Char} (h : u <:+ l ++ [c]) :
    u = [] ∨ ∃ u0, u = u0 ++ [c] ∧ u0 <:+ l := by
  rcases List.eq_nil_or_concat u with rfl | ⟨u0, a, rfl⟩
  · exact Or.inl rfl
  · obtain ⟨w, hw⟩ := h
    right
    rw [List.concat_eq_append] at hw ⊢
    have h2 : (w ++ u0) ++ [a] = l ++ [c] := by simpa [List.append_assoc] using hw
    have h3 := List.append_inj' h2 rfl
    obtain ⟨h4, h5⟩ := h3
    injection h5 with h6 _
    subst h6
    exact ⟨u0, rfl, ⟨w, h4⟩⟩

/-! ## Every token the scanner flushes is well behaved -/

theorem goodChars_of_flush {cur cs : List Char} (h1 : '.' ∉ cur)
    (h2 : ∀ u, u ≠ [] → u <:+ cur → tryRun (u ++ cs) = none) (hf : FlushCtx cs) :
    GoodChars cur := by
  refine ⟨h1, fun u hsuf hrun => ?_⟩
  by_cases hu : u = []
  · subst hu
    obtain ⟨hne, -⟩ := hrun
    rw [parseRun_none (show parseGroup [] = none from rfl)] at hne
    exact hne rfl
  · exact tryRun_ne_none_of_runToEnd hrun hf (h2 u hu hsuf)

theorem scan_good : ∀ cs cur : List Char, '.' ∉ cur →
    (∀ u, u ≠ [] → u <:+ cur → tryRun (u ++ cs) = none) →
    (∀ s, Seg.field s ∈ scanL cs cur → GoodChars s.data) ∧
      ∃ s r, scanL cs cur = Seg.field s :: r := by
  suffices hm : ∀ m (cs cur : List Char), cs.length ≤ m → '.' ∉ cur →
      (∀ u, u ≠ [] → u <:+ cur → tryRun (u ++ cs) = none) →
      (∀ s, Seg.field s ∈ scanL cs cur → GoodChars s.data) ∧
        ∃ s r, scanL cs cur = Seg.field s :: r by
    exact fun cs cur h1 h2 => hm cs.length cs cur le_rfl h1 h2
  intro m
  induction m with
  | zero =>
    intro cs cur hl h1 h2
    have hnil : cs = [] := by cases cs <;> simp_all
    subst hnil
    rw [scanL_nil]
    refine ⟨?_, ⟨cur⟩, [], rfl⟩
    intro s hs
    simp only [List.mem_singleton, Seg.field.injEq] at hs
    subst hs
    exact goodChars_of_flush h1 h2 (Or.inl rfl)
  | succ m ih =>
    intro cs cur hl h1 h2
    rcases cs with _ | ⟨c, rest⟩
    · rw [scanL_nil]
      refine ⟨?_, ⟨cur⟩, [], rfl⟩
      intro s hs
      simp only [List.mem_singleton, Seg.field.injEq] at hs
      subst hs
      exact goodChars_of_flush h1 h2 (Or.inl rfl)
    · simp only [List.length_cons] at hl
      by_cases hc : c = '.'
      · subst hc
        rw [scanL_dot]
        have hcur : GoodChars cur :=
          goodChars_of_flush h1 h2 (Or.inr (Or.inl ⟨rest, rfl⟩))
        have hih := ih rest [] (by omega) (by simp)
          (by intro u hu hsuf; rw [List.suffix_nil] at hsuf; exact absurd hsuf hu)
        refine ⟨?_, ⟨cur⟩, _, rfl⟩
        intro s hs
        rcases List.mem_cons.mp hs with he | ht
        · rw [Seg.field.injEq] at he
          subst he
          exact hcur
        · exact hih.1 s ht
      · by_cases hb : c = '['
        · subst hb
          rcases htr : tryRun ('[' :: rest) with _ | ⟨ns, rest1⟩
          · rw [scanL_other hc htr]
            apply ih rest (cur ++ ['[']) (by omega)
            · intro hmem
              rcases List.mem_append.mp hmem with hm1 | hm2
              · exact h1 hm1
              · simp at hm2
            · intro u hu hsuf
              rcases suffix_snoc hsuf with rfl | ⟨u0, rfl, hsuf0⟩
              · exact absurd rfl hu
              · rw [List.append_assoc, List.singleton_append]
                by_cases hu0 : u0 = []
                · subst hu0
                  simpa using htr
                · exact h2 u0 hu0 hsuf0
          · have hcur : GoodChars cur :=
              goodChars_of_flush h1 h2 (Or.inr (Or.inr ⟨ns, rest1, htr⟩))
            obtain ⟨-, -, hr1⟩ := tryRun_eq htr
            rcases hr1 with rfl | ⟨t, rfl⟩
            · rw [scanL_run_nil htr]
              refine ⟨?_, ⟨cur⟩, _, rfl⟩
              intro s hs
              rcases List.mem_cons.mp hs with he | ht
              · rw [Seg.field.injEq] at he
                subst he
                exact hcur
              · obtain ⟨a, -, ha⟩ := List.mem_map.mp ht
                exact absurd ha (by simp)
            · rw [scanL_run_cons htr]
              refine ⟨?_, ⟨cur⟩, _, rfl⟩
              intro s hs
              rcases List.mem_cons.mp hs with he | ht
              · rw [Seg.field.injEq] at he
                subst he
                exact hcur
              · rcases List.mem_append.mp ht with hmap | htail
                · obtain ⟨a, -, ha⟩ := List.mem_map.mp hmap
                  exact absurd ha (by simp)
                · have hlen := tryRun_length htr
                  simp only [List.length_cons] at hlen
                  have hih := ih t [] (by omega) (by simp)
                    (by intro u hu hsuf; rw [List.suffix_nil] at hsuf; exact absurd hsuf hu)
                  exact hih.1 s htail
        · rw [scanL_other hc (tryRun_not_bracket hb)]
          apply ih rest (cur ++ [c]) (by omega)
          · intro hmem
            rcases List.mem_append.mp hmem with hm1 | hm2
            · exact h1 hm1
            · simp at hm2
              exact hc hm2.symm
          · intro u hu hsuf
            rcases suffix_snoc hsuf with rfl | ⟨u0, rfl, hsuf0⟩
            · exact absurd rfl hu
            · rw [List.append_assoc, List.singleton_append]
              by_cases hu0 : u0 = []
              · subst hu0
                simpa using tryRun_not_bracket hb
              · exact h2 u0 hu0 hsuf0

/-- Every field segment the parser produces is a well-behaved token. -/
theorem parse_fields_good (s : String) :
    ∀ nm, Seg.field nm ∈ parseKeyStr s → GoodChars nm.data := by
  intro nm h
  exact (scan_good s.data [] (by simp)
    (by intro u hu hsuf; rw [List.suffix_nil] at hsuf; exact absurd hsuf hu)).1 nm h

/-- The parser always returns a nonempty path starting with a field name. -/
theorem parse_head_field (s : String) : ∃ nm r, parseKeyStr s = Seg.field nm :: r :=
  (scan_good s.data [] (by simp)
    (by intro u hu hsuf; rw [List.suffix_nil] at hsuf; exact absurd hsuf hu)).2

/-! ## Re-parsing a rendered path -/

theorem takeIdx_recomb : ∀ p : List Seg, (takeIdx p).1.map Seg.index ++ (takeIdx p).2 = p := by
  intro p
  induction p with
  | nil => rfl
  | cons sg rest ih =>
    rcases sg with s | n
    · rfl
    · show Seg.index n :: ((takeIdx rest).1.map Seg.index ++ (takeIdx rest).2) = _
      rw [ih]

theorem takeIdx_snd_shape : ∀ p : List Seg,
    (takeIdx p).2 = [] ∨ ∃ s r, (takeIdx p).2 = Seg.field s :: r := by
  intro p
  induction p with
  | nil => exact Or.inl rfl
  | cons sg rest ih =>
    rcases sg with s | n
    · exact Or.inr ⟨s, rest, rfl⟩
    · exact ih

theorem takeIdx_snd_len : ∀ p : List Seg, (takeIdx p).2.length ≤ p.length := by
  intro p
  induction p with
  | nil => exact le_rfl
  | cons sg rest ih =>
    rcases sg with s | n
    · exact le_rfl
    · exact ih.trans (by simp)

theorem renderTail_field (s : String) (rest : List Seg) :
    renderTail (Seg.field s :: rest) = '.' :: (s.data ++ renderTail rest) := by
  simp [renderTail, renderSeg]

theorem renderTail_index (n : Nat) (rest : List Seg) :
    renderTail (Seg.index n :: rest) = '[' :: (decRepr n ++ ']' :: renderTail rest) := by
  simp [renderTail, renderSeg]

theorem renderTail_contOK (p : List Seg) : ContOK (renderTail p) := by
  rcases p with _ | ⟨sg, rest⟩
  · exact Or.inl rfl
  · rcases sg with s | n
    · exact Or.inr (Or.inl ⟨s.data ++ renderTail rest, renderTail_field s rest⟩)
    · exact Or.inr (Or.inr ⟨decRepr n ++ ']' :: renderTail rest, renderTail_index n rest⟩)

theorem parseRun_renderTail : ∀ p : List Seg,
    parseRun (renderTail p) = ((takeIdx p).1, renderTail (takeIdx p).2) := by
  intro p
  induction p with
  | nil => exact parseRun_none rfl
  | cons sg rest ih =>
    rcases sg with s | n
    · rw [renderTail_field]
      exact parseRun_none (parseGroup_not_bracket (by decide))
    · rw [renderTail_index, parseRun_group (parseGroup_render n (renderTail rest)), ih]
      rfl

theorem tryRun_renderTail_idx (n : Nat) (rest : List Seg) :
    tryRun (renderTail (Seg.index n :: rest)) =
      some ((takeIdx (Seg.index n :: rest)).1, renderTail (takeIdx (Seg.index n :: rest)).2) := by
  unfold tryRun
  rw [parseRun_renderTail]
  have hfst : (takeIdx (Seg.index n :: rest)).1 = n :: (takeIdx rest).1 := rfl
  have hsnd : (takeIdx (Seg.index n :: rest)).2 = (takeIdx rest).2 := rfl
  rw [hfst, hsnd]
  dsimp only
  rw [if_neg (by simp)]
  rcases takeIdx_snd_shape rest with hnil | ⟨s2, r2, heq⟩
  · rw [hnil]
    rfl
  · rw [heq, renderTail_field]
    dsimp only
    rw [if_pos rfl]

/-- Re-parsing the rendering of a path of well-behaved segments, with a
pending token `cur ++ t` in front, recovers the token then the path. -/
theorem scan_render : ∀ p : List Seg, (∀ s, Seg.field s ∈ p → GoodChars s.data) →
    ∀ t cur : List Char, GoodChars (cur ++ t) →
      scanL (t ++ renderTail p) cur = Seg.field ⟨cur ++ t⟩ :: p := by
  suffices hm : ∀ m (p : List Seg), p.length < m →
      (∀ s, Seg.field s ∈ p → GoodChars s.data) →
      ∀ t cur : List Char, GoodChars (cur ++ t) →
        scanL (t ++ renderTail p) cur = Seg.field ⟨cur ++ t⟩ :: p by
    exact fun p hg t cur hc => hm (p.length + 1) p (by omega) hg t cur hc
  intro m
  induction m with
  | zero => intro p h; omega
  | succ m ihm =>
    intro p hpl hgood t
    induction t with
    | nil =>
      intro cur hcur
      rw [List.nil_append]
      rcases p with _ | ⟨sg, prest⟩
      · rw [show renderTail [] = [] from rfl, scanL_nil]
        simp
      · simp only [List.length_cons] at hpl
        rcases sg with sname | nidx
        · rw [renderTail_field, scanL_dot]
          have hrec := ihm prest (by omega)
            (fun s hs => hgood s (List.mem_cons.mpr (Or.inr hs))) sname.data []
            (hgood sname (by simp))
          rw [hrec]
          obtain ⟨snd⟩ := sname
          simp
        · have htr := tryRun_renderTail_idx nidx prest
          rw [renderTail_index] at htr ⊢
          have hsnd : (takeIdx (Seg.index nidx :: prest)).2 = (takeIdx prest).2 := rfl
          rcases takeIdx_snd_shape prest with hnil | ⟨s2, r2, heq⟩
          · rw [hsnd, hnil, show renderTail ([] : List Seg) = [] from rfl] at htr
            rw [scanL_run_nil htr]
            have hrecomb := takeIdx_recomb (Seg.index nidx :: prest)
            rw [hsnd, hnil, List.append_nil] at hrecomb
            rw [hrecomb]
            simp
          · rw [hsnd, heq, renderTail_field] at htr
            rw [scanL_run_cons htr]
            have hlen : (takeIdx prest).2.length ≤ prest.length := takeIdx_snd_len prest
            rw [heq] at hlen
            simp only [List.length_cons] at hlen
            have hmem : ∀ x, x ∈ (takeIdx prest).2 → x ∈ Seg.index nidx :: prest := by
              intro x hx
              have h2 : x ∈ (takeIdx prest).1.map Seg.index ++ (takeIdx prest).2 :=
                List.mem_append.mpr (Or.inr hx)
              rw [takeIdx_recomb prest] at h2
              exact List.mem_cons.mpr (Or.inr h2)
            have hmem2 : ∀ s : String, Seg.field s ∈ r2 → GoodChars s.data := by
              intro s hs
              refine hgood s (hmem (Seg.field s) ?_)
              rw [heq]
              exact List.mem_cons.mpr (Or.inr hs)
            have hs2good : GoodChars s2.data := by
              refine hgood s2 (hmem (Seg.field s2) ?_)
              rw [heq]
              simp
            have hrec := ihm r2 (by omega) hmem2 s2.data [] hs2good
            rw [hrec]
            obtain ⟨sd2⟩ := s2
            have hrecomb := takeIdx_recomb (Seg.index nidx :: prest)
            rw [hsnd, heq] at hrecomb
            rw [show Seg.field (⟨[] ++ sd2⟩ : String) = Seg.field ⟨sd2⟩ from rfl, hrecomb]
            simp
    | cons c t iht =>
      intro cur hcur
      have hcd : c ≠ '.' := by
        intro he
        exact hcur.1 (List.mem_append.mpr (Or.inr (by rw [he]; simp)))
      rw [List.cons_append]
      have hnone : tryRun (c :: (t ++ renderTail p)) = none := by
        by_cases hb : c = '['
        · subst hb
          have hsh : '[' :: (t ++ renderTail p) = ('[' :: t) ++ renderTail p := rfl
          rw [hsh]
          refine tryRun_none_of_good (by simp) ?_ ?_ (renderTail_contOK p)
          · intro hm2
            rcases List.mem_cons.mp hm2 with h' | h'
            · exact absurd h' (by decide)
            · exact hcur.1 (List.mem_append.mpr (Or.inr (List.mem_cons.mpr (Or.inr h'))))
          · exact hcur.2 ('[' :: t) (List.suffix_append cur ('[' :: t))
        · exact tryRun_not_bracket hb
      rw [scanL_other hcd hnone]
      have harr : (cur ++ [c]) ++ t = cur ++ (c :: t) := by simp
      have hg2 : GoodChars ((cur ++ [c]) ++ t) := by rw [harr]; exact hcur
      rw [iht (cur ++ [c]) hg2, harr]

/-- C4: for every parsed path the parser can produce, re-parsing its
unparsed rendering yields the very same segment sequence:
`parse_key(unparse_key(parse_key(s))) = parse_key(s)` for every string. -/
theorem C4_roundtrip (s : String) :
    parseKeyStr (unparseKey (parseKeyStr s)) = parseKeyStr s := by
  obtain ⟨nm, r, hp⟩ := parse_head_field s
  have hgood := parse_fields_good s
  rw [hp]
  have hu : unparseKey (Seg.field nm :: r) = ⟨nm.data ++ renderTail r⟩ := by
    simp [unparseKey, renderSeg]
  rw [hu]
  have hps : parseKeyStr ⟨nm.data ++ renderTail r⟩ = scanL (nm.data ++ renderTail r) [] := rfl
  rw [hps]
  have hmain := scan_render r
    (fun s2 hs2 => hgood s2 (by rw [hp]; exact List.mem_cons.mpr (Or.inr hs2)))
    nm.data [] (hgood nm (by rw [hp]; simp))
  rw [hmain]
  obtain ⟨nd⟩ := nm
  rfl

/-- C6 (counterexample): even on the candidate key `"[0]"`, the first
parsed segment is the empty-string FieldName, not an Index; the general
negation (the first segment is a FieldName for every string) is proved in
the amended theorem. -/
theorem C6_counterexample :
    parseKeyStr "[0]" = [Seg.field "", Seg.index 0] ∧
    (parseKeyStr "[0]").head? ≠ some (Seg.index 0) := by decide

/-- C6 (amended): parse_key always returns a non-empty path whose first
segment is a FieldName (possibly the empty string); a key starting with a
bracket group yields the empty-string field name and then the index, as
in `parse_key("[0]") = ["", 0]`. -/
theorem C6_amended :
    (∀ s : String, parseKeyStr s ≠ [] ∧ ∃ nm r, parseKeyStr s = Seg.field nm :: r) ∧
    parseKeyStr "[0]" = [Seg.field "", Seg.index 0] := by
  refine ⟨fun s => ?_, by decide⟩
  obtain ⟨nm, r, h⟩ := parse_head_field s
  exact ⟨by rw [h]; simp, nm, r, h⟩

/-! ## Claims about concrete behavior -/

/-- C1 (counterexample): on input `{"foo[2]": "z"}` the materializer
appends a single empty ordered mapping before `"z"`, yielding
`{"foo": [{}, "z"]}` and not the claimed `{"foo": [{}, {}, "z"]}`: the
value does not end up at list position 2. -/
theorem C1_counterexample :
    unflattenL [(.str "foo[2]", .str "z")] =
      .ok (.cons (.field "foo")
        (.listV (.cons (.dictV .nil) (.cons (.term (.str "z")) .nil))) .nil) ∧
    unflattenL [(.str "foo[2]", .str "z")] ≠
      .ok (.cons (.field "foo")
        (.listV (.cons (.dictV .nil)
          (.cons (.dictV .nil) (.cons (.term (.str "z")) .nil)))) .nil) := by
  exact ⟨rfl, by decide⟩

/-- C1 (amended): for each entry of a sorted sequence holder whose index
differs from its enumerate position, exactly one empty ordered mapping is
inserted before the value, regardless of the gap's size; so for any value
`t` both `{"foo[2]": t}` and `{"foo[3]": t}` materialize as
`{"foo": [{}, t]}`. -/
theorem C1_amended (t : Term) :
    unflattenL [(.str "foo[2]", t)] =
      .ok (.cons (.field "foo") (.listV (.cons (.dictV .nil) (.cons (.term t) .nil))) .nil) ∧
    unflattenL [(.str "foo[3]", t)] =
      .ok (.cons (.field "foo") (.listV (.cons (.dictV .nil) (.cons (.term t) .nil))) .nil) :=
  ⟨rfl, rfl⟩

/-- C2 (counterexample): an input in which prefix `"x"` is first required
to be a mapping holder (`"x.y"`) and later a sequence holder (`"x[0]"`),
but where an earlier pair already conflicts at prefix `"a"`: the raised
conflict error references `"a"`, not the key prefix `"x"`. -/
theorem C2_counterexample :
    unflattenL [(.str "a", .int 1), (.str "a.b", .int 2),
        (.str "x.y", .int 3), (.str "x[0]", .int 4)] =
      .error (.conflict .terminal .dict "a") ∧
    errConflictKey (unflattenL [(.str "a", .int 1), (.str "a.b", .int 2),
        (.str "x.y", .int 3), (.str "x[0]", .int 4)]) ≠ some "x" := by
  exact ⟨rfl, by decide⟩

/-- C5 (counterexample): on the malformed key `"a[1x]"` the parser does
not extract the digit `1` as an index with the `x` ignored; the whole
malformed group stays inside a single field-name segment. -/
theorem C5_counterexample :
    parseKeyStr "a[1x]" = [.field "a[1x]"] ∧ Seg.index 1 ∉ parseKeyStr "a[1x]" := by
  decide

/-- C5 (amended): malformed bracket syntax never raises — parsing a string
key always succeeds — but a malformed group is not treated as an index at
all: its characters, digits included, are preserved inside the field-name
segment rather than ignored, while later well-formed groups still parse. -/
theorem C5_amended :
    (∀ s : String, ∃ p, parseKeyRaw (.str s) = .ok p) ∧
    parseKeyStr "a[1x]" = [.field "a[1x]"] ∧
    parseKeyStr "a[1x][2]" = [.field "a[1x]", .index 2] :=
  ⟨fun s => ⟨parseKeyStr s, rfl⟩, by decide, by decide⟩

/-- C7 (counterexample): an input containing a non-string key on which
unflatten raises a ValueError-class conflict (at an earlier pair), not a
TypeError-class error. -/
theorem C7_counterexample :
    unflattenL [(.str "foo", .int 1), (.str "foo.bar", .int 2), (.other 1, .str "x")] =
      .error (.conflict .terminal .dict "foo") ∧
    isTypeError (unflattenL
      [(.str "foo", .int 1), (.str "foo.bar", .int 2), (.other 1, .str "x")]) = false := by
  exact ⟨rfl, by decide⟩

/-- Any input containing a non-string key makes the build loop fail with
some error (the TypeError of `_parse_key` if no earlier pair fails first). -/
theorem buildAll_err_of_bad_key (pairs : List (RawKey × Term)) :
    ∀ st : BState, (∃ i v, (RawKey.other i, v) ∈ pairs) →
      ∃ e, buildAll st pairs = .error e := by
  induction pairs with
  | nil => intro st h; obtain ⟨i, v, hm⟩ := h; simp at hm
  | cons p rest ih =>
    intro st h
    obtain ⟨i, v, hm⟩ := h
    rcases List.mem_cons.mp hm with he | ht
    · subst he
      exact ⟨.typeError "keys must be strings", by simp [buildAll, processPair]⟩
    · match hp : processPair st p with
      | .error e => exact ⟨e, by simp [buildAll, hp]⟩
      | .ok st1 =>
        obtain ⟨e, he⟩ := ih st1 ⟨i, v, ht⟩
        exact ⟨e, by simp [buildAll, hp, he]⟩

/-- C7 (amended): every input containing a non-string key makes unflatten
raise some error and return no partial result; the error is the TypeError
"keys must be strings" when the bad key is reached before any structural
conflict, as in `unflatten([(1, "x")])`. -/
theorem C7_amended :
    (∀ pairs : List (RawKey × Term), (∃ i v, (RawKey.other i, v) ∈ pairs) →
      ∃ e, unflattenL pairs = .error e) ∧
    unflattenL [(.other 1, .str "x")] = .error (.typeError "keys must be strings") := by
  refine ⟨fun pairs h => ?_, rfl⟩
  obtain ⟨e, he⟩ := buildAll_err_of_bad_key pairs initState h
  exact ⟨e, by simp [unflattenL, he]⟩

/-- C7 (witness): the amended statement applied at a concrete input whose
second key is not a string. -/
theorem C7_witness :
    ∃ e, unflattenL [(.str "a", .int 1), (.other 7, .int 2)] = .error e :=
  C7_amended.1 [(.str "a", .int 1), (.other 7, .int 2)] ⟨7, .int 2, by simp⟩

/-- C10: empty field-name segments are accepted at any position: the empty
key parses to the one-segment path `[""]`, `"a..b"` parses to
`["a", "", "b"]`, and `unflatten([("", 1)])` returns `{"": 1}` without
raising. -/
theorem C10_empty_segments :
    parseKeyStr "" = [.field ""] ∧
    parseKeyStr "a..b" = [.field "a", .field "", .field "b"] ∧
    unflattenL [(.str "", .int 1)] = .ok (.cons (.field "") (.term (.int 1)) .nil) :=
  ⟨by decide, by decide, rfl⟩

/-! ## Ordered-mapping lemmas -/

theorem elGet_elSet_self (d : EList) (k : Seg) (v : Node) :
    elGet (elSet d k v) k = some v := by
  induction d using elInduction with
  | hnil => simp [elSet, elGet]
  | hcons k0 n rest ih =>
    by_cases h : k0 = k
    · subst h
      simp [elSet, elGet]
    · simp [elSet, elGet, h, ih]

theorem elGet_elSet_other (d : EList) {k k' : Seg} (v : Node) (h : k' ≠ k) :
    elGet (elSet d k v) k' = elGet d k' := by
  induction d using elInduction with
  | hnil => simp [elSet, elGet, Ne.symm h]
  | hcons k0 n rest ih =>
    by_cases h0 : k0 = k
    · subst h0
      simp [elSet, elGet, Ne.symm h, ih]
    · by_cases h1 : k0 = k'
      · subst h1
        simp [elSet, elGet, h0]
      · simp [elSet, elGet, h0, h1, ih]

theorem elGet_none_iff (d : EList) (k : Seg) : elGet d k = none ↔ k ∉ elKeys d := by
  induction d using elInduction with
  | hnil => simp [elGet, elKeys]
  | hcons k0 n rest ih =>
    by_cases h0 : k0 = k
    · subst h0
      simp [elGet, elKeys]
    · simp [elGet, elKeys, h0, ih, Ne.symm h0]

theorem elGet_some_mem {d : EList} {k : Seg} {n : Node} (h : elGet d k = some n) :
    k ∈ elKeys d := by
  by_contra hk
  rw [← elGet_none_iff] at hk
  rw [h] at hk
  exact absurd hk (by simp)

theorem elKeys_elSet_mem {d : EList} {k : Seg} (v : Node) (h : k ∈ elKeys d) :
    elKeys (elSet d k v) = elKeys d := by
  induction d using elInduction with
  | hnil => simp [elKeys] at h
  | hcons k0 n rest ih =>
    by_cases h0 : k0 = k
    · subst h0
      simp [elSet, elKeys]
    · simp only [elKeys, List.mem_cons] at h
      rcases h with h | h

      · exact absurd h.symm h0
      · simp [elSet, elKeys, h0, ih h]

theorem elKeys_elSet_new {d : EList} {k : Seg} (v : Node) (h : k ∉ elKeys d) :
    elKeys (elSet d k v) = elKeys d ++ [k] := by
  induction d using elInduction with
  | hnil => simp [elSet, elKeys]
  | hcons k0 n rest ih =>
    simp only [elKeys, List.mem_cons] at h
    push_neg at h
    simp [elSet, elKeys, Ne.symm h.1, ih h.2]

theorem elPairs_fst_mem {d : EList} {k : Seg} {n : Node} (h : (k, n) ∈ elPairs d) :
    k ∈ elKeys d := by
  induction d using elInduction with
  | hnil => simp [elPairs] at h
  | hcons k0 n0 rest ih =>
    simp only [elPairs, List.mem_cons, Prod.mk.injEq] at h
    rcases h with ⟨h1, -⟩ | h
    · simp [elKeys, h1]
    · simp [elKeys, ih h]

theorem elPairs_mem_elGet {d : EList} (hnd : (elKeys d).Nodup) {k : Seg} {n : Node}
    (h : (k, n) ∈ elPairs d) : elGet d k = some n := by
  induction d using elInduction with
  | hnil => simp [elPairs] at h
  | hcons k0 n0 rest ih =>
    simp only [elKeys, List.nodup_cons] at hnd
    simp only [elPairs, List.mem_cons, Prod.mk.injEq] at h
    rcases h with ⟨h1, h2⟩ | h
    · subst h1
      subst h2
      simp [elGet]
    · have hk : k ≠ k0 := by
        intro he
        subst he
        exact hnd.1 (elPairs_fst_mem h)
      simp [elGet, Ne.symm hk, ih hnd.2 h]

theorem elRefFree_of_all (d : EList)
    (h : ∀ k n, (k, n) ∈ elPairs d → nodeRefFree n = true) : elRefFree d = true := by
  induction d using elInduction with
  | hnil => rfl
  | hcons k0 n0 rest ih =>
    have h0 := h k0 n0 (by simp [elPairs])
    have hr := ih (fun k n hm => h k n (by simp [elPairs, hm]))
    simp [elRefFree, h0, hr]

theorem lv_refFree (items : List (Nat × Node))
    (h : ∀ x ∈ items, nodeRefFree x.2 = true) : ∀ n, nlRefFree (lv n items) = true := by
  induction items with
  | nil => intro n; rfl
  | cons x rest ih =>
    intro n
    rcases x with ⟨key, val⟩
    have hv := h (key, val) (by simp)
    have hr := ih (fun y hy => h y (by simp [hy])) (n + 1)
    by_cases hk : key = n
    · simp [lv, hk, nlRefFree, hv, hr]
    · simp [lv, hk, nlRefFree, hv, hr, nodeRefFree, elRefFree]

theorem getvalue_refFree (h : Holder)
    (hyp : ∀ k n, (k, n) ∈ elPairs h.data → nodeRefFree n = true) :
    nodeRefFree (getvalue h) = true := by
  unfold getvalue
  rcases hk : h.kind
  · exact elRefFree_of_all h.data hyp
  · show nlRefFree (lv 0 (sortedItems h.data)) = true
    refine lv_refFree _ ?_ 0
    intro x hx
    have hmem : x ∈ (elPairs h.data).map (fun q => (segNat q.1, q.2)) :=
      (List.perm_insertionSort _ _).mem_iff.mp hx
    obtain ⟨q, hq, rfl⟩ := List.mem_map.mp hmem
    exact hyp q.1 q.2 hq

/-! ## State update lemmas -/

theorem list_get?_set_ne {α : Type} (l : List α) (i j : Nat) (a : α) (h : i ≠ j) :
    (l.set i a).get? j = l.get? j := by
  rw [List.get?_eq_getElem?, List.get?_eq_getElem?, List.getElem?_set]
  simp [h]

theorem list_get?_set_self {α : Type} (l : List α) (i : Nat) (a : α) (h : i < l.length) :
    (l.set i a).get? i = some a := by
  rw [List.get?_eq_getElem?, List.getElem?_set]
  simp [h]

theorem arena_get?_lt {st : BState} {i : Nat} {h : Holder}
    (hg : st.arena.get? i = some h) : i < st.arena.length := by
  by_contra hlen
  rw [List.get?_eq_none.mpr (by omega)] at hg
  exact absurd hg (by simp)

theorem setSlot_arena_length (st : BState) (o : ObjRef) (k : Seg) (v : Node) :
    (setSlot st o k v).arena.length = st.arena.length := by
  rcases o with _ | i
  · rfl
  · unfold setSlot
    dsimp only
    rcases hg : st.arena.get? i with _ | h
    · rfl
    · dsimp only
      simp [List.length_set]

theorem setSlot_holders (st : BState) (o : ObjRef) (k : Seg) (v : Node) :
    (setSlot st o k v).holders = st.holders := by
  rcases o with _ | i
  · rfl
  · unfold setSlot
    dsimp only
    rcases hg : st.arena.get? i with _ | h
    · rfl
    · rfl

theorem setSlot_kind (st : BState) (o : ObjRef) (k : Seg) (v : Node) {j : Nat} {h : Holder}
    (hj : st.arena.get? j = some h) :
    ∃ h', (setSlot st o k v).arena.get? j = some h' ∧ h'.kind = h.kind ∧
      h'.flatKey = h.flatKey := by
  rcases o with _ | i
  · exact ⟨h, hj, rfl, rfl⟩
  · unfold setSlot
    dsimp only
    rcases hg : st.arena.get? i with _ | h0
    · exact ⟨h, hj, rfl, rfl⟩
    · dsimp only
      by_cases hij : i = j
      · subst hij
        rw [hg] at hj
        injection hj with hje
        subst hje
        exact ⟨_, list_get?_set_self _ _ _ (arena_get?_lt hg), rfl, rfl⟩
      · refine ⟨h, ?_, rfl, rfl⟩
        rw [list_get?_set_ne _ _ _ _ hij]
        exact hj

theorem objData_setSlot_self {st : BState} {o : ObjRef} (hvo : ValidO st o)
    (k : Seg) (v : Node) :
    objData (setSlot st o k v) o = elSet (objData st o) k v := by
  rcases o with _ | i
  · rfl
  · have hi : i < st.arena.length := hvo
    rcases hg : st.arena.get? i with _ | h
    · exact absurd (List.get?_eq_none.mp hg) (by omega)
    · unfold setSlot objData
      dsimp only
      rw [hg]
      dsimp only
      rw [list_get?_set_self _ _ _ hi]

theorem objData_setSlot_other {st : BState} {o o' : ObjRef} (h : o' ≠ o)
    (k : Seg) (v : Node) :
    objData (setSlot st o k v) o' = objData st o' := by
  rcases o with _ | i
  · rcases o' with _ | j
    · exact absurd rfl h
    · rfl
  · unfold setSlot
    dsimp only
    rcases hg : st.arena.get? i with _ | h0
    · rfl
    · dsimp only
      rcases o' with _ | j
      · rfl
      · have hij : i ≠ j := fun he => h (by rw [he])
        unfold objData
        dsimp only
        rw [list_get?_set_ne _ _ _ _ hij]

theorem addHolder_snd (st : BState) (o : ObjRef) (key : Seg) (hk : HolderKind)
    (fk : String) : (addHolder st o key hk fk).2 = st.arena.length := rfl

theorem addHolder_fst (st : BState) (o : ObjRef) (key : Seg) (hk : HolderKind)
    (fk : String) :
    (addHolder st o key hk fk).1 =
      setSlot (grow st o key hk fk) o key (.ref st.arena.length) := rfl

theorem grow_arena (st : BState) (o : ObjRef) (key : Seg) (hk : HolderKind)
    (fk : String) : (grow st o key hk fk).arena = st.arena ++ [⟨hk, fk, .nil⟩] := rfl

theorem grow_holders (st : BState) (o : ObjRef) (key : Seg) (hk : HolderKind)
    (fk : String) : (grow st o key hk fk).holders = st.holders ++ [(o, key)] := rfl

theorem grow_objData {st : BState} {o' : ObjRef} (hvo' : ValidO st o') (o : ObjRef)
    (key : Seg) (hk : HolderKind) (fk : String) :
    objData (grow st o key hk fk) o' = objData st o' := by
  rcases o' with _ | j
  · rfl
  · unfold objData
    dsimp only
    rw [grow_arena, List.get?_append hvo']

theorem addHolder_arena_length (st : BState) (o : ObjRef) (key : Seg) (hk : HolderKind)
    (fk : String) :
    (addHolder st o key hk fk).1.arena.length = st.arena.length + 1 := by
  rw [addHolder_fst, setSlot_arena_length, grow_arena]
  simp

theorem addHolder_holders (st : BState) (o : ObjRef) (key : Seg) (hk : HolderKind)
    (fk : String) :
    (addHolder st o key hk fk).1.holders = st.holders ++ [(o, key)] := by
  rw [addHolder_fst, setSlot_holders, grow_holders]

theorem addHolder_get_old (st : BState) (o : ObjRef) (key : Seg) (hk : HolderKind)
    (fk : String) {j : Nat} {h : Holder} (hj : st.arena.get? j = some h) :
    ∃ h', (addHolder st o key hk fk).1.arena.get? j = some h' ∧ h'.kind = h.kind ∧
      h'.flatKey = h.flatKey := by
  rw [addHolder_fst]
  have hj2 : (grow st o key hk fk).arena.get? j = some h := by
    rw [grow_arena, List.get?_append (arena_get?_lt hj)]
    exact hj
  exact setSlot_kind _ o key (Node.ref st.arena.length) hj2

theorem addHolder_get_new (st : BState) {o : ObjRef} (hvo : ValidO st o) (key : Seg)
    (hk : HolderKind) (fk : String) :
    (addHolder st o key hk fk).1.arena.get? st.arena.length =
      some ⟨hk, fk, .nil⟩ := by
  rw [addHolder_fst]
  have hnew : (grow st o key hk fk).arena.get? st.arena.length = some ⟨hk, fk, .nil⟩ := by
    rw [grow_arena]
    exact List.get?_concat_length _ _
  rcases o with _ | m
  · exact hnew
  · have hm : m < st.arena.length := hvo
    unfold setSlot
    dsimp only
    rcases hg : (grow st (ObjRef.node m) key hk fk).arena.get? m with _ | h0
    · exact hnew
    · dsimp only
      rw [list_get?_set_ne _ _ _ _ (by omega)]
      exact hnew

theorem addHolder_objData_self (st : BState) {o : ObjRef} (hvo : ValidO st o) (key : Seg)
    (hk : HolderKind) (fk : String) :
    objData (addHolder st o key hk fk).1 o =
      elSet (objData st o) key (.ref st.arena.length) := by
  rw [addHolder_fst]
  have hvo1 : ValidO (grow st o key hk fk) o := by
    rcases o with _ | m
    · trivial
    · show m < (grow st (ObjRef.node m) key hk fk).arena.length
      have hm : m < st.arena.length := hvo
      rw [grow_arena]
      simp
      omega
  rw [objData_setSlot_self hvo1, grow_objData hvo]

theorem addHolder_objData_other (st : BState) {o o' : ObjRef} (h : o' ≠ o)
    (hvo' : ValidO st o') (key : Seg) (hk : HolderKind) (fk : String) :
    objData (addHolder st o key hk fk).1 o' = objData st o' := by
  rw [addHolder_fst, objData_setSlot_other h, grow_objData hvo']

theorem addHolder_objData_new (st : BState) {o : ObjRef} (hvo : ValidO st o) (key : Seg)
    (hk : HolderKind) (fk : String) :
    objData (addHolder st o key hk fk).1 (.node st.arena.length) = .nil := by
  have hg := addHolder_get_new st hvo key hk fk
  unfold objData
  dsimp only
  rw [hg]


/-! ## The builder invariant is preserved -/

theorem list_get?_lt {α : Type} {l : List α} {j : Nat} {a : α} (h : l.get? j = some a) :
    j < l.length := by
  by_contra hl
  rw [List.get?_eq_none.mpr (by omega)] at h
  exact absurd h (by simp)

theorem objData_invalid {st : BState} {o : ObjRef} (h : ¬ ValidO st o) :
    objData st o = .nil := by
  rcases o with _ | j
  · exact absurd trivial h
  · have hj : ¬ j < st.arena.length := h
    unfold objData
    dsimp only
    rw [List.get?_eq_none.mpr (by omega)]

theorem setSlot_elGet {st : BState} {o : ObjRef} (hvo : ValidO st o) (k : Seg) (v : Node)
    (o' : ObjRef) (k' : Seg) :
    elGet (objData (setSlot st o k v) o') k' =
      if o' = o ∧ k' = k then some v else elGet (objData st o') k' := by
  by_cases h1 : o' = o
  · subst h1
    rw [objData_setSlot_self hvo]
    by_cases h2 : k' = k
    · subst h2
      rw [elGet_elSet_self]
      simp
    · rw [elGet_elSet_other _ _ h2]
      simp [h2]
  · rw [objData_setSlot_other h1]
    simp [h1]

theorem addHolder_elGet {st : BState} {o : ObjRef} (hvo : ValidO st o) (key : Seg)
    (hk : HolderKind) (fk : String) (o' : ObjRef) (k' : Seg) :
    elGet (objData (addHolder st o key hk fk).1 o') k' =
      if o' = o ∧ k' = key then some (.ref st.arena.length)
      else if o' = ObjRef.node st.arena.length then none
      else elGet (objData st o') k' := by
  have hONI : o ≠ ObjRef.node st.arena.length := by
    intro he
    rw [he] at hvo
    exact absurd hvo (by simp [ValidO])
  by_cases h1 : o' = o
  · subst h1
    rw [addHolder_objData_self st hvo key hk fk]
    by_cases h2 : k' = key
    · subst h2
      rw [elGet_elSet_self]
      simp
    · rw [elGet_elSet_other _ _ h2]
      simp [h2, hONI]
  · by_cases h2 : o' = ObjRef.node st.arena.length
    · subst h2
      rw [addHolder_objData_new st hvo key hk fk]
      simp [h1, elGet]
    · rw [if_neg (show ¬(o' = o ∧ k' = key) from fun hc => h1 hc.1), if_neg h2]
      by_cases h3 : ValidO st o'
      · exact congrArg (fun d => elGet d k') (addHolder_objData_other st h1 h3 key hk fk)
      · rw [objData_invalid h3]
        have h4 : ¬ ValidO (addHolder st o key hk fk).1 o' := by
          rcases o' with _ | j
          · exact absurd trivial h3
          · have hj : ¬ j < st.arena.length := h3
            show ¬ j < (addHolder st o key hk fk).1.arena.length
            rw [addHolder_arena_length]
            intro hj2
            exact h2 (by
              congr 1
              omega)
        rw [objData_invalid h4]

theorem nodup_concat {l : List Seg} {k : Seg} (h1 : l.Nodup) (h2 : k ∉ l) :
    (l ++ [k]).Nodup := by
  rw [List.nodup_append]
  refine ⟨h1, List.nodup_singleton k, ?_⟩
  intro a ha hb
  rw [List.mem_singleton] at hb
  subst hb
  exact h2 ha

theorem addHolder_inv {st : BState} (hinv : Inv st) {o : ObjRef} (hvo : ValidO st o)
    {key : Seg} (hnew : elGet (objData st o) key = none)
    (hfit : CursorFit st o key) (hk : HolderKind) (fk : String) :
    Inv (addHolder st o key hk fk).1 := by
  have hA1 := addHolder_arena_length st o key hk fk
  have hA2 := addHolder_holders st o key hk fk
  have hG := addHolder_elGet hvo key hk fk
  have hHL := hinv.hlen
  have hHold : ∀ j, (addHolder st o key hk fk).1.holders.get? j =
      if j < st.holders.length then st.holders.get? j
      else if j = st.holders.length then some (o, key) else none := by
    intro j
    rw [hA2]
    by_cases hj : j < st.holders.length
    · rw [List.get?_append hj]
      simp [hj]
    · by_cases hj2 : j = st.holders.length
      · subst hj2
        rw [List.get?_concat_length]
        simp
      · rw [List.get?_eq_none.mpr (by simp; omega)]
        simp [hj, hj2]
  have hNodeNil : objData st (ObjRef.node st.arena.length) = .nil :=
    objData_invalid (by simp [ValidO])
  refine ⟨?_, ?_, ?_, ?_, ?_, ?_, ?_, ?_⟩
  · rw [hA2, hA1]
    simp [hHL]
  · intro j e hje
    rw [hHold] at hje
    by_cases hj : j < st.holders.length
    · rw [if_pos hj] at hje
      have hold := hinv.slot_entry j e hje
      rw [hG]
      by_cases hc1 : e.1 = o ∧ e.2 = key
      · rw [hc1.1, hc1.2] at hold
        rw [hold] at hnew
        exact absurd hnew (by simp)
      · rw [if_neg hc1]
        by_cases hc2 : e.1 = ObjRef.node st.arena.length
        · rw [hc2, hNodeNil] at hold
          exact absurd hold (by simp [elGet])
        · rw [if_neg hc2]
          exact hold
    · rw [if_neg hj] at hje
      by_cases hj2 : j = st.holders.length
      · rw [if_pos hj2] at hje
        injection hje with hje
        subst hje
        rw [hG, if_pos ⟨rfl, rfl⟩, hj2, hHL]
      · rw [if_neg hj2] at hje
        exact absurd hje (by simp)
  · intro o' k' j h'
    rw [hG] at h'
    by_cases hc1 : o' = o ∧ k' = key
    · rw [if_pos hc1] at h'
      have hj : st.arena.length = j := by
        injection h' with h2
        injection h2 with h3
      rw [hHold, hc1.1, hc1.2]
      rw [if_neg (show ¬ j < st.holders.length by omega),
        if_pos (show j = st.holders.length by omega)]
    · rw [if_neg hc1] at h'
      by_cases hc2 : o' = ObjRef.node st.arena.length
      · rw [if_pos hc2] at h'
        exact absurd h' (by simp)
      · rw [if_neg hc2] at h'
        have hold := hinv.ref_entry o' k' j h'
        rw [hHold, if_pos (list_get?_lt hold)]
        exact hold
  · intro j m k hje
    rw [hHold] at hje
    by_cases hj : j < st.holders.length
    · rw [if_pos hj] at hje
      exact hinv.parent_lt j m k hje
    · rw [if_neg hj] at hje
      by_cases hj2 : j = st.holders.length
      · rw [if_pos hj2] at hje
        injection hje with hje
        injection hje with hm hk2
        rw [hm] at hvo
        have : m < st.arena.length := hvo
        omega
      · rw [if_neg hj2] at hje
        exact absurd hje (by simp)
  · intro o' k' n h'
    rw [hG] at h'
    by_cases hc1 : o' = o ∧ k' = key
    · rw [if_pos hc1] at h'
      injection h' with h'
      exact Or.inr ⟨st.arena.length, h'.symm⟩
    · rw [if_neg hc1] at h'
      by_cases hc2 : o' = ObjRef.node st.arena.length
      · rw [if_pos hc2] at h'
        exact absurd h' (by simp)
      · rw [if_neg hc2] at h'
        exact hinv.slots_simple o' k' n h'
  · intro o' k' j h'
    rw [hG] at h'
    rw [hA1]
    by_cases hc1 : o' = o ∧ k' = key
    · rw [if_pos hc1] at h'
      injection h' with h'
      injection h' with h'
      omega
    · rw [if_neg hc1] at h'
      by_cases hc2 : o' = ObjRef.node st.arena.length
      · rw [if_pos hc2] at h'
        exact absurd h' (by simp)
      · rw [if_neg hc2] at h'
        have := hinv.ref_lt o' k' j h'
        omega
  · intro o'
    by_cases hc1 : o' = o
    · subst hc1
      rw [addHolder_objData_self st hvo key hk fk,
        elKeys_elSet_new _ ((elGet_none_iff _ _).mp hnew)]
      exact nodup_concat (hinv.keys_nodup o') ((elGet_none_iff _ _).mp hnew)
    · by_cases hc2 : o' = ObjRef.node st.arena.length
      · subst hc2
        rw [addHolder_objData_new st hvo key hk fk]
        simp [elKeys]
      · by_cases h3 : ValidO st o'
        · rw [addHolder_objData_other st hc1 h3 key hk fk]
          exact hinv.keys_nodup o'
        · have h4 : ¬ ValidO (addHolder st o key hk fk).1 o' := by
            rcases o' with _ | j
            · exact absurd trivial h3
            · have hj : ¬ j < st.arena.length := h3
              show ¬ j < (addHolder st o key hk fk).1.arena.length
              rw [hA1]
              intro hj2
              exact hc2 (by
                congr 1
                omega)
          rw [objData_invalid h4]
          simp [elKeys]
  · intro j h' hj' k n hkn
    have hobj : objData (addHolder st o key hk fk).1 (ObjRef.node j) = h'.data := by
      unfold objData
      dsimp only
      rw [hj']
    rw [← hobj, hG] at hkn
    by_cases hc1 : ObjRef.node j = o ∧ k = key
    · rw [if_pos hc1] at hkn
      rcases hgo : st.arena.get? j with _ | hOld
      · rw [← hc1.1] at hvo
        have hjl : j < st.arena.length := hvo
        exact absurd (List.get?_eq_none.mp hgo) (by omega)
      · obtain ⟨h'', hg'', hkind, -⟩ := addHolder_get_old st o key hk fk hgo
        rw [hj'] at hg''
        injection hg'' with hg''
        rw [hc1.2, hg'', hkind]
        exact hfit j hc1.1.symm hOld hgo
    · rw [if_neg hc1] at hkn
      by_cases hc2 : (ObjRef.node j : ObjRef) = ObjRef.node st.arena.length
      · rw [if_pos hc2] at hkn
        exact absurd hkn (by simp)
      · rw [if_neg hc2] at hkn
        rcases hgo : st.arena.get? j with _ | hOld
        · rw [show objData st (ObjRef.node j) = .nil from by
            unfold objData
            dsimp only
            rw [hgo]] at hkn
          exact absurd hkn (by simp [elGet])
        · obtain ⟨h'', hg'', hkind, -⟩ := addHolder_get_old st o key hk fk hgo
          rw [hj'] at hg''
          injection hg'' with hg''
          rw [hg'', hkind]
          refine hinv.kind_keys j hOld hgo k n ?_
          have hds : objData st (ObjRef.node j) = hOld.data := by
            unfold objData
            dsimp only
            rw [hgo]
          rw [hds] at hkn
          exact hkn

theorem setSlot_term_inv {st : BState} (hinv : Inv st) {o : ObjRef} (hvo : ValidO st o)
    {key : Seg}
    (hcur : elGet (objData st o) key = none ∨
      ∃ t0, elGet (objData st o) key = some (.term t0))
    (hfit : CursorFit st o key) (v : Term) :
    Inv (setSlot st o key (.term v)) := by
  have hG := setSlot_elGet hvo key (.term v)
  have hAL := setSlot_arena_length st o key (.term v)
  have hHo := setSlot_holders st o key (.term v)
  refine ⟨?_, ?_, ?_, ?_, ?_, ?_, ?_, ?_⟩
  · rw [hHo, hAL]
    exact hinv.hlen
  · intro j e hje
    rw [hHo] at hje
    have hold := hinv.slot_entry j e hje
    rw [hG]
    by_cases hc1 : e.1 = o ∧ e.2 = key
    · rw [hc1.1, hc1.2] at hold
      rcases hcur with hn | ⟨t0, ht⟩
      · rw [hn] at hold
        exact absurd hold (by simp)
      · rw [ht] at hold
        exact absurd hold (by simp)
    · rw [if_neg hc1]
      exact hold
  · intro o' k' j h'
    rw [hG] at h'
    by_cases hc1 : o' = o ∧ k' = key
    · rw [if_pos hc1] at h'
      exact absurd h' (by simp)
    · rw [if_neg hc1] at h'
      rw [hHo]
      exact hinv.ref_entry o' k' j h'
  · intro j m k hje
    rw [hHo] at hje
    exact hinv.parent_lt j m k hje
  · intro o' k' n h'
    rw [hG] at h'
    by_cases hc1 : o' = o ∧ k' = key
    · rw [if_pos hc1] at h'
      injection h' with h'
      exact Or.inl ⟨v, h'.symm⟩
    · rw [if_neg hc1] at h'
      exact hinv.slots_simple o' k' n h'
  · intro o' k' j h'
    rw [hG] at h'
    rw [hAL]
    by_cases hc1 : o' = o ∧ k' = key
    · rw [if_pos hc1] at h'
      exact absurd h' (by simp)
    · rw [if_neg hc1] at h'
      exact hinv.ref_lt o' k' j h'
  · intro o'
    by_cases hc1 : o' = o
    · subst hc1
      rw [objData_setSlot_self hvo]
      rcases hcur with hn | ⟨t0, ht⟩
      · rw [elKeys_elSet_new _ ((elGet_none_iff _ _).mp hn)]
        exact nodup_concat (hinv.keys_nodup o') ((elGet_none_iff _ _).mp hn)
      · rw [elKeys_elSet_mem _ (elGet_some_mem ht)]
        exact hinv.keys_nodup o'
    · rw [objData_setSlot_other hc1]
      exact hinv.keys_nodup o'
  · intro j h' hj' k n hkn
    have hobj : objData (setSlot st o key (.term v)) (ObjRef.node j) = h'.data := by
      unfold objData
      dsimp only
      rw [hj']
    rw [← hobj, hG] at hkn
    have hlt : j < st.arena.length := by
      have h2 := list_get?_lt hj'
      rw [hAL] at h2
      exact h2
    rcases hgo : st.arena.get? j with _ | hOld
    · exact absurd (List.get?_eq_none.mp hgo) (by omega)
    · obtain ⟨h'', hg'', hkind, -⟩ := setSlot_kind st o key (.term v) hgo
      rw [hj'] at hg''
      injection hg'' with hg''
      rw [hg'', hkind]
      by_cases hc1 : ObjRef.node j = o ∧ k = key
      · rw [hc1.2]
        exact hfit j hc1.1.symm hOld hgo
      · rw [if_neg hc1] at hkn
        refine hinv.kind_keys j hOld hgo k n ?_
        have hds : objData st (ObjRef.node j) = hOld.data := by
          unfold objData
          dsimp only
          rw [hgo]
        rw [hds] at hkn
        exact hkn

/-! ### Equations for the intermediate walk -/

theorem buildInters_nil (st : BState) (o : ObjRef) (depth : Nat) (full : List Seg) :
    buildInters st o [] depth full = .ok (st, o) := rfl

theorem buildInters_single (st : BState) (o : ObjRef) (k : Seg) (depth : Nat)
    (full : List Seg) : buildInters st o [k] depth full = .ok (st, o) := rfl

theorem buildInters_cons_cons (st : BState) (o : ObjRef) (key next : Seg)
    (rest : List Seg) (depth : Nat) (full : List Seg) :
    buildInters st o (key :: next :: rest) depth full =
      match elGet (objData st o) key with
      | none =>
        buildInters
          (addHolder st o key (holderKindOf next) (unparseKey (full.take depth))).1
          (.node st.arena.length) (next :: rest) (depth + 1) full
      | some nd =>
        match refKindMatches st nd (holderKindOf next) with
        | some j => buildInters st (.node j) (next :: rest) (depth + 1) full
        | none =>
          .error (.conflict (nodeTypeOf st nd) (kindNT (holderKindOf next))
            (unparseKey (full.take depth))) := rfl

theorem buildInters_create {st : BState} {o : ObjRef} {key next : Seg} {rest : List Seg}
    {depth : Nat} {full : List Seg} (h : elGet (objData st o) key = none) :
    buildInters st o (key :: next :: rest) depth full =
      buildInters
        (addHolder st o key (holderKindOf next) (unparseKey (full.take depth))).1
        (.node st.arena.length) (next :: rest) (depth + 1) full := by
  rw [buildInters_cons_cons, h]

theorem buildInters_descend {st : BState} {o : ObjRef} {key next : Seg} {rest : List Seg}
    {depth : Nat} {full : List Seg} {nd : Node} {j : Nat}
    (h : elGet (objData st o) key = some nd)
    (h2 : refKindMatches st nd (holderKindOf next) = some j) :
    buildInters st o (key :: next :: rest) depth full =
      buildInters st (.node j) (next :: rest) (depth + 1) full := by
  rw [buildInters_cons_cons, h]
  dsimp only
  rw [h2]

theorem buildInters_confl {st : BState} {o : ObjRef} {key next : Seg} {rest : List Seg}
    {depth : Nat} {full : List Seg} {nd : Node}
    (h : elGet (objData st o) key = some nd)
    (h2 : refKindMatches st nd (holderKindOf next) = none) :
    buildInters st o (key :: next :: rest) depth full =
      .error (.conflict (nodeTypeOf st nd) (kindNT (holderKindOf next))
        (unparseKey (full.take depth))) := by
  rw [buildInters_cons_cons, h]
  dsimp only
  rw [h2]

theorem refKindMatches_some {st : BState} {nd : Node} {hk : HolderKind} {j : Nat}
    (h : refKindMatches st nd hk = some j) :
    nd = .ref j ∧ ∃ hh, st.arena.get? j = some hh ∧ hh.kind = hk := by
  rcases nd with t | i | es | ns
  · exact absurd h (by simp [refKindMatches])
  · unfold refKindMatches at h
    dsimp only at h
    rcases hg : st.arena.get? i with _ | hh
    · rw [hg] at h
      exact absurd h (by simp)
    · rw [hg] at h
      dsimp only at h
      by_cases hkk : hh.kind = hk
      · rw [if_pos hkk] at h
        injection h with h
        subst h
        exact ⟨rfl, hh, hg, hkk⟩
      · rw [if_neg hkk] at h
        exact absurd h (by simp)
  · exact absurd h (by simp [refKindMatches])
  · exact absurd h (by simp [refKindMatches])

/-- Every successful intermediate walk from an invariant-satisfying state
ends in an invariant-satisfying state with a valid, fitting cursor. -/
theorem buildInters_inv : ∀ (path : List Seg) (st : BState) (o : ObjRef) (depth : Nat)
    (full : List Seg) (res : BState × ObjRef),
    Inv st → ValidO st o → (∀ k, path.head? = some k → CursorFit st o k) →
    buildInters st o path depth full = .ok res →
    Inv res.1 ∧ ValidO res.1 res.2 ∧
      (∀ k, path.getLast? = some k → CursorFit res.1 res.2 k) := by
  intro path
  induction path with
  | nil =>
    intro st o depth full res hinv hvo hcur heq
    rw [buildInters_nil] at heq
    injection heq with heq
    subst heq
    exact ⟨hinv, hvo, fun k hk => absurd hk (by simp)⟩
  | cons key tl ih =>
    intro st o depth full res hinv hvo hcur heq
    rcases tl with _ | ⟨next, rest⟩
    · rw [buildInters_single] at heq
      injection heq with heq
      subst heq
      refine ⟨hinv, hvo, fun k hk => ?_⟩
      rw [List.getLast?_singleton] at hk
      injection hk with hk
      subst hk
      exact hcur key rfl
    · rcases hsl : elGet (objData st o) key with _ | nd
      · rw [buildInters_create hsl] at heq
        have hfit0 : CursorFit st o key := hcur key rfl
        have hinv2 := addHolder_inv hinv hvo hsl hfit0 (holderKindOf next)
          (unparseKey (full.take depth))
        have hvo2 : ValidO (addHolder st o key (holderKindOf next)
            (unparseKey (full.take depth))).1 (ObjRef.node st.arena.length) := by
          show st.arena.length < _
          rw [addHolder_arena_length]
          omega
        have hfit2 : CursorFit (addHolder st o key (holderKindOf next)
            (unparseKey (full.take depth))).1 (ObjRef.node st.arena.length) next := by
          intro m hm h hgm
          injection hm with hm
          subst hm
          rw [addHolder_get_new st hvo key (holderKindOf next)
            (unparseKey (full.take depth))] at hgm
          injection hgm with hgm
          rw [← hgm]
        have hrec := ih (addHolder st o key (holderKindOf next)
            (unparseKey (full.take depth))).1 (ObjRef.node st.arena.length)
          (depth + 1) full res hinv2 hvo2
          (fun k hk => by
            injection hk with hk
            subst hk
            exact hfit2) heq
        refine ⟨hrec.1, hrec.2.1, fun k hk => hrec.2.2 k ?_⟩
        rw [List.getLast?_cons_cons] at hk
        exact hk
      · rcases hrm : refKindMatches st nd (holderKindOf next) with _ | j
        · rw [buildInters_confl hsl hrm] at heq
          exact absurd heq (by simp)
        · rw [buildInters_descend hsl hrm] at heq
          obtain ⟨hnd, hh, hgj, hkind⟩ := refKindMatches_some hrm
          have hvoj : ValidO st (ObjRef.node j) := list_get?_lt hgj
          have hfitj : CursorFit st (ObjRef.node j) next := by
            intro m hm h hgm
            injection hm with hm
            subst hm
            rw [hgj] at hgm
            injection hgm with hgm
            rw [← hgm]
            exact hkind.symm
          have hrec := ih st (ObjRef.node j) (depth + 1) full res hinv hvoj
            (fun k hk => by
              injection hk with hk
              subst hk
              exact hfitj) heq
          refine ⟨hrec.1, hrec.2.1, fun k hk => hrec.2.2 k ?_⟩
          rw [List.getLast?_cons_cons] at hk
          exact hk

theorem getLast_facts {α : Type} : ∀ (l : List α) (d : α), l ≠ [] →
    ∃ a, l.getLast? = some a ∧ l.getLastD d = a := by
  intro l
  induction l with
  | nil => intro d h; exact absurd rfl h
  | cons x xs ih =>
    intro d h
    rcases xs with _ | ⟨y, ys⟩
    · exact ⟨x, rfl, rfl⟩
    · obtain ⟨a, h1, h2⟩ := ih x (by simp)
      refine ⟨a, ?_, ?_⟩
      · rw [List.getLast?_cons_cons]
        exact h1
      · exact h2

/-- A successful full path insertion from an invariant-satisfying state
preserves the invariant. -/
theorem processPath_inv {st : BState} (hinv : Inv st) {o : ObjRef} (hvo : ValidO st o)
    {path : List Seg} (hne : path ≠ [])
    (hcur : ∀ k, path.head? = some k → CursorFit st o k)
    {depth : Nat} {full : List Seg} {fk : String} {v : Term} {st' : BState}
    (heq : processPath st o path depth full fk v = .ok st') : Inv st' := by
  unfold processPath at heq
  rcases hbi : buildInters st o path depth full with e | res
  · rw [hbi] at heq
    exact absurd heq (by simp)
  · rcases res with ⟨st1, o1⟩
    rw [hbi] at heq
    dsimp only at heq
    obtain ⟨hinv1, hvo1, hlast⟩ :=
      buildInters_inv path st o depth full (st1, o1) hinv hvo hcur hbi
    obtain ⟨last, hgl, hgd⟩ := getLast_facts path (Seg.field "") hne
    rw [hgd] at heq
    have hfitl : CursorFit st1 o1 last := hlast last hgl
    unfold setLast at heq
    rcases hsl : elGet (objData st1 o1) last with _ | nd
    · rw [hsl] at heq
      dsimp only at heq
      injection heq with heq
      subst heq
      exact setSlot_term_inv hinv1 hvo1 (Or.inl hsl) hfitl v
    · rcases nd with t | jj | es | ns
      · rw [hsl] at heq
        dsimp only at heq
        injection heq with heq
        subst heq
        exact setSlot_term_inv hinv1 hvo1 (Or.inr ⟨t, hsl⟩) hfitl v
      · rw [hsl] at heq
        dsimp only at heq
        exact absurd heq (by simp)
      · rcases hinv1.slots_simple o1 last _ hsl with ⟨t, ht⟩ | ⟨jj, hj⟩
        · exact absurd ht (by simp)
        · exact absurd hj (by simp)
      · rcases hinv1.slots_simple o1 last _ hsl with ⟨t, ht⟩ | ⟨jj, hj⟩
        · exact absurd ht (by simp)
        · exact absurd hj (by simp)

/-- A successful single-pair step preserves the invariant. -/
theorem processPair_inv {st st' : BState} (hinv : Inv st) {pr : RawKey × Term}
    (heq : processPair st pr = .ok st') : Inv st' := by
  rcases pr with ⟨rk, v⟩
  rcases rk with s | n
  · have heq2 : processPath st .root (parseKeyStr s) 1 (parseKeyStr s) s v = .ok st' := heq
    obtain ⟨nm, r, hp⟩ := parse_head_field s
    refine processPath_inv hinv (show ValidO st ObjRef.root from trivial) ?_ ?_ heq2
    · rw [hp]
      simp
    · intro k hk m hm
      exact absurd hm (by simp)
  · exact absurd heq (by simp [processPair])

theorem initState_holders_get (j : Nat) :
    initState.holders.get? j = none := rfl

theorem initState_arena_get (j : Nat) :
    initState.arena.get? j = none := rfl

theorem objData_initState (o : ObjRef) : objData initState o = .nil := by
  rcases o with _ | j
  · rfl
  · rfl

/-- The initial builder state satisfies the invariant. -/
theorem initState_inv : Inv initState := by
  refine ⟨rfl, ?_, ?_, ?_, ?_, ?_, ?_, ?_⟩
  · intro j e hje
    rw [initState_holders_get] at hje
    exact absurd hje (by simp)
  · intro o k j h
    rw [objData_initState] at h
    exact absurd h (by simp [elGet])
  · intro j m k hje
    rw [initState_holders_get] at hje
    exact absurd hje (by simp)
  · intro o k n h
    rw [objData_initState] at h
    exact absurd h (by simp [elGet])
  · intro o k j h
    rw [objData_initState] at h
    exact absurd h (by simp [elGet])
  · intro o
    rw [objData_initState]
    exact List.nodup_nil
  · intro i h hi
    rw [initState_arena_get] at hi
    exact absurd hi (by simp)

/-- Building any pair list from an invariant-satisfying state preserves
the invariant. -/
theorem buildAll_inv : ∀ (pairs : List (RawKey × Term)) (st st' : BState),
    Inv st → buildAll st pairs = .ok st' → Inv st' := by
  intro pairs
  induction pairs with
  | nil =>
    intro st st' hinv heq
    have heq2 : (Except.ok st : Except PyErr BState) = .ok st' := heq
    injection heq2 with heq2
    subst heq2
    exact hinv
  | cons pr rest ih =>
    intro st st' hinv heq
    rcases hpp : processPair st pr with e | st1
    · unfold buildAll at heq
      rw [hpp] at heq
      exact absurd heq (by simp)
    · unfold buildAll at heq
      rw [hpp] at heq
      dsimp only at heq
      exact ih st1 st' (processPair_inv hinv hpp) heq


/-! ## The sequence-holder assertion (C8) -/

theorem elKeys_eq_map_fst : ∀ d : EList, elKeys d = (elPairs d).map Prod.fst := by
  intro d
  induction d using elInduction with
  | hnil => rfl
  | hcons k n rest ih =>
    show k :: elKeys rest = k :: (elPairs rest).map Prod.fst
    rw [ih]

theorem lvAssertOk_of_pairwise : ∀ (l : List (Nat × Node)),
    List.Pairwise (fun a b => a.1 < b.1) l →
    ∀ n : Nat, (∀ x ∈ l, n ≤ x.1) → lvAssertOk n l = true := by
  intro l
  induction l with
  | nil => intro _ n _; rfl
  | cons p rest ih =>
    intro hp n hall
    rcases p with ⟨k, v⟩
    show (decide (n ≤ k) && lvAssertOk (n + 1) rest) = true
    rw [Bool.and_eq_true]
    obtain ⟨hhead, htail⟩ := List.pairwise_cons.mp hp
    refine ⟨decide_eq_true (hall (k, v) (by simp)), ih htail (n + 1) ?_⟩
    intro x hx
    have hk : k < x.1 := hhead x hx
    have hn : n ≤ k := hall (k, v) (by simp)
    omega

/-- In an invariant-satisfying state, the sorted entries of any sequence
holder have strictly increasing integer keys. -/
theorem list_holder_pairwise {st : BState} (hinv : Inv st) {i : Nat} {h : Holder}
    (hg : st.arena.get? i = some h) (hkd : h.kind = .list) :
    List.Pairwise (fun a b : Nat × Node => a.1 < b.1) (sortedItems h.data) := by
  have hobj : objData st (ObjRef.node i) = h.data := by
    unfold objData
    dsimp only
    rw [hg]
  have hnodup : (elKeys h.data).Nodup := by
    rw [← hobj]
    exact hinv.keys_nodup (ObjRef.node i)
  have hidx : ∀ k2 ∈ elKeys h.data, ∃ n2, k2 = Seg.index n2 := by
    intro k2 hk2
    rw [elKeys_eq_map_fst] at hk2
    obtain ⟨q, hq, hq1⟩ := List.mem_map.mp hk2
    rcases q with ⟨qk, qn⟩
    have hget : elGet h.data qk = some qn := elPairs_mem_elGet hnodup hq
    have hkind := hinv.kind_keys i h hg qk qn hget
    rw [hkd] at hkind
    rcases qk with s2 | n2
    · exact absurd hkind (by simp [holderKindOf])
    · exact ⟨n2, hq1 ▸ rfl⟩
  have hfst : ((elPairs h.data).map (fun q => (segNat q.1, q.2))).map Prod.fst =
      (elKeys h.data).map segNat := by
    rw [List.map_map, elKeys_eq_map_fst, List.map_map]
    rfl
  have hfstnodup : ((elKeys h.data).map segNat).Nodup := by
    refine List.Nodup.map_on ?_ hnodup
    intro x hx y hy hxy
    obtain ⟨nx, hnx⟩ := hidx x hx
    obtain ⟨ny, hny⟩ := hidx y hy
    subst hnx
    subst hny
    have : nx = ny := hxy
    rw [this]
  have hperm : List.Perm (sortedItems h.data)
      ((elPairs h.data).map (fun q => (segNat q.1, q.2))) :=
    List.perm_insertionSort _ _
  have hpermf : List.Perm ((sortedItems h.data).map Prod.fst)
      ((elKeys h.data).map segNat) := by
    rw [← hfst]
    exact hperm.map Prod.fst
  have hsortnodup : ((sortedItems h.data).map Prod.fst).Nodup :=
    hpermf.nodup_iff.mpr hfstnodup
  have hne : List.Pairwise (fun a b : Nat × Node => a.1 ≠ b.1) (sortedItems h.data) :=
    List.pairwise_map.mp hsortnodup
  haveI hTot : IsTotal (Nat × Node) (fun a b => a.1 ≤ b.1) :=
    ⟨fun a b => Nat.le_total a.1 b.1⟩
  haveI hTrans : IsTrans (Nat × Node) (fun a b => a.1 ≤ b.1) :=
    ⟨fun a b c hab hbc => le_trans hab hbc⟩
  have hsorted : List.Pairwise (fun a b : Nat × Node => a.1 ≤ b.1) (sortedItems h.data) :=
    List.sorted_insertionSort _ _
  exact (hsorted.and hne).imp (fun hx => lt_of_le_of_ne hx.1 hx.2)

/-- C8: in every builder state unflatten reaches on any input, the sorted
entries of every sequence holder pass the materializer's assertion: walked
with the enumerate counter `n` from 0, each entry's integer key satisfies
`key >= n` (so the `assert key > n` in the `key != n` branch of
`_list_holder.getvalue` never fails and materialization never aborts). -/
theorem C8_assert_ok {pairs : List (RawKey × Term)} {st : BState}
    (hb : buildAll initState pairs = .ok st) :
    ∀ i h, st.arena.get? i = some h → h.kind = .list →
      lvAssertOk 0 (sortedItems h.data) = true := by
  have hinv := buildAll_inv pairs initState st initState_inv hb
  intro i h hg hk
  exact lvAssertOk_of_pairwise _ (list_holder_pairwise hinv hg hk) 0
    (fun x hx => Nat.zero_le _)

/-- C8 (witness): concrete run `unflatten({"foo[2]": "z"})`; its single
holder is a sequence holder whose sorted entries pass the assertion. -/
theorem C8_witness :
    buildAll initState [(RawKey.str "foo[2]", Term.str "z")] =
      .ok ⟨EList.cons (Seg.field "foo") (Node.ref 0) EList.nil,
        [⟨HolderKind.list, "foo",
          EList.cons (Seg.index 2) (Node.term (Term.str "z")) EList.nil⟩],
        [(ObjRef.root, Seg.field "foo")]⟩ ∧
    lvAssertOk 0 (sortedItems
      (EList.cons (Seg.index 2) (Node.term (Term.str "z")) EList.nil)) = true := by
  have hb : buildAll initState [(RawKey.str "foo[2]", Term.str "z")] =
      .ok ⟨EList.cons (Seg.field "foo") (Node.ref 0) EList.nil,
        [⟨HolderKind.list, "foo",
          EList.cons (Seg.index 2) (Node.term (Term.str "z")) EList.nil⟩],
        [(ObjRef.root, Seg.field "foo")]⟩ := by rfl
  exact ⟨hb, C8_assert_ok hb 0
    ⟨HolderKind.list, "foo",
      EList.cons (Seg.index 2) (Node.term (Term.str "z")) EList.nil⟩ rfl rfl⟩


/-! ## Finalization in reverse creation order (C9) -/

theorem finalizeHolder_eq {st : BState} {e : ObjRef × Seg} {b : Nat} {h : Holder}
    (hsl : elGet (objData st e.1) e.2 = some (.ref b))
    (hga : st.arena.get? b = some h) :
    finalizeHolder st e = setSlot st e.1 e.2 (getvalue h) := by
  unfold finalizeHolder
  rw [hsl]
  dsimp only
  rw [hga]

/-- One finalization step, at the largest still-pending index. -/
theorem finalize_step {holders0 : List (ObjRef × Seg)}
    (hpar : ∀ j i k, holders0.get? j = some (ObjRef.node i, k) → i < j)
    (huniq : ∀ j1 j2 e, holders0.get? j1 = some e → holders0.get? j2 = some e → j1 = j2)
    {b : Nat} (hbl : b < holders0.length) {e : ObjRef × Seg}
    (hget : holders0.get? b = some e) {st' : BState}
    (hfin : FinInv holders0 (b + 1) st') :
    FinInv holders0 b (finalizeHolder st' e) := by
  obtain ⟨eo, ek⟩ := e
  have hsl : elGet (objData st' eo) ek = some (.ref b) :=
    hfin.pending b (eo, ek) (by omega) hget
  rcases hga : st'.arena.get? b with _ | h
  · have hlen := List.get?_eq_none.mp hga
    rw [hfin.flen] at hlen
    omega
  · have hvo : ValidO st' eo := by
      rcases heo : eo with _ | i
      · exact trivial
      · rw [heo] at hget
        have hip := hpar b i ek hget
        show i < st'.arena.length
        rw [hfin.flen]
        omega
    have hobj : objData st' (ObjRef.node b) = h.data := by
      unfold objData
      dsimp only
      rw [hga]
    have hchild : ∀ k2 n2, (k2, n2) ∈ elPairs h.data → nodeRefFree n2 = true := by
      intro k2 n2 hmem
      have hnd : (elKeys h.data).Nodup := by
        rw [← hobj]
        exact hfin.nodupF (ObjRef.node b)
      have hk2 : elGet (objData st' (ObjRef.node b)) k2 = some n2 := by
        rw [hobj]
        exact elPairs_mem_elGet hnd hmem
      rcases hfin.slots_ok _ _ _ hk2 with ⟨j, hj⟩ | hfree
      · rw [hj] at hk2
        obtain ⟨hjb, hjget⟩ := hfin.refs_bound _ _ _ hk2
        have := hpar j b k2 hjget
        omega
      · exact hfree
    have hgv : nodeRefFree (getvalue h) = true := getvalue_refFree h hchild
    rw [finalizeHolder_eq hsl hga]
    have hG := setSlot_elGet hvo ek (getvalue h)
    have hAL := setSlot_arena_length st' eo ek (getvalue h)
    refine ⟨?_, ?_, ?_, ?_, ?_⟩
    · rw [hAL]
      exact hfin.flen
    · intro o k j hr
      rw [hG] at hr
      by_cases hc : o = eo ∧ k = ek
      · rw [if_pos hc] at hr
        injection hr with hr
        rw [hr] at hgv
        exact absurd hgv (by simp [nodeRefFree])
      · rw [if_neg hc] at hr
        obtain ⟨hj1, hj2⟩ := hfin.refs_bound o k j hr
        have hjb : j ≠ b := by
          intro hjb
          rw [hjb, hget] at hj2
          injection hj2 with hj2
          exact hc ⟨congrArg Prod.fst hj2.symm, congrArg Prod.snd hj2.symm⟩
        exact ⟨by omega, hj2⟩
    · intro j e2 hjb hj2
      have hold := hfin.pending j e2 (by omega) hj2
      rw [hG]
      rw [if_neg ?_]
      · exact hold
      · intro hc
        have he2 : e2 = (eo, ek) := by
          have h1 : e2 = (e2.1, e2.2) := rfl
          rw [h1, hc.1, hc.2]
        rw [he2] at hj2
        have := huniq j b (eo, ek) hj2 hget
        omega
    · intro o k n hr
      rw [hG] at hr
      by_cases hc : o = eo ∧ k = ek
      · rw [if_pos hc] at hr
        injection hr with hr
        rw [hr] at hgv
        exact Or.inr hgv
      · rw [if_neg hc] at hr
        exact hfin.slots_ok o k n hr
    · intro o'
      by_cases hc : o' = eo
      · subst hc
        rw [objData_setSlot_self hvo]
        rw [elKeys_elSet_mem _ (elGet_some_mem hsl)]
        exact hfin.nodupF o'
      · rw [objData_setSlot_other hc]
        exact hfin.nodupF o'

/-- Folding the pending prefix, in reverse order, down to no pending
holders. -/
theorem finalize_take {holders0 : List (ObjRef × Seg)}
    (hpar : ∀ j i k, holders0.get? j = some (ObjRef.node i, k) → i < j)
    (huniq : ∀ j1 j2 e, holders0.get? j1 = some e → holders0.get? j2 = some e → j1 = j2) :
    ∀ (b : Nat), b ≤ holders0.length → ∀ (st' : BState), FinInv holders0 b st' →
      FinInv holders0 0 (((holders0.take b).reverse).foldl finalizeHolder st') := by
  intro b
  induction b with
  | zero =>
    intro hb st' h
    simpa using h
  | succ b ih =>
    intro hb st' hfin
    have hbl : b < holders0.length := by omega
    rcases hget : holders0.get? b with _ | e
    · have := List.get?_eq_none.mp hget
      omega
    · have hgetElem : holders0[b]? = some e := by
        rw [← List.get?_eq_getElem?]
        exact hget
      have htake : (holders0.take (b + 1)).reverse = e :: (holders0.take b).reverse := by
        rw [List.take_succ, hgetElem]
        simp
      rw [htake, List.foldl_cons]
      exact ih (by omega) _ (finalize_step hpar huniq hbl hget hfin)

/-- C9: the recorded holders are finalized in exactly reverse creation
order (the fold over `reversed(holders)` in the embedding), and on every
successful run the returned structure is completely free of holder
references: only ordered mappings, lists and the caller's terminal
values remain. -/
theorem C9_no_holder_leaks : ∀ (pairs : List (RawKey × Term)) (d : EList),
    unflattenL pairs = .ok d → elRefFree d = true := by
  intro pairs d heq
  unfold unflattenL at heq
  rcases hb : buildAll initState pairs with err | st
  · rw [hb] at heq
    exact absurd heq (by simp)
  · rw [hb] at heq
    dsimp only at heq
    injection heq with heq
    have hinv := buildAll_inv pairs initState st initState_inv hb
    have hL : st.holders.length = st.arena.length := hinv.hlen
    have huniq : ∀ j1 j2 e, st.holders.get? j1 = some e →
        st.holders.get? j2 = some e → j1 = j2 := by
      intro j1 j2 e h1 h2
      have s1 := hinv.slot_entry j1 e h1
      have s2 := hinv.slot_entry j2 e h2
      rw [s1] at s2
      injection s2 with s2
      injection s2 with s2
    have hfinL : FinInv st.holders st.holders.length st := by
      refine ⟨hL.symm, ?_, ?_, ?_, hinv.keys_nodup⟩
      · intro o k j h
        refine ⟨?_, hinv.ref_entry o k j h⟩
        rw [hL]
        exact hinv.ref_lt o k j h
      · intro j e hjb hj
        exact hinv.slot_entry j e hj
      · intro o k n h
        rcases hinv.slots_simple o k n h with ⟨t, ht⟩ | ⟨j, hj⟩
        · subst ht
          exact Or.inr rfl
        · exact Or.inl ⟨j, hj⟩
    have hfold := finalize_take hinv.parent_lt huniq st.holders.length le_rfl st hfinL
    rw [List.take_length] at hfold
    rw [← heq]
    refine elRefFree_of_all _ ?_
    intro k n hmem
    have hnd : (elKeys (st.holders.reverse.foldl finalizeHolder st).root).Nodup :=
      hfold.nodupF ObjRef.root
    have hk : elGet (objData (st.holders.reverse.foldl finalizeHolder st) ObjRef.root) k =
        some n := elPairs_mem_elGet hnd hmem
    rcases hfold.slots_ok _ _ _ hk with ⟨j, hj⟩ | hfree
    · rw [hj] at hk
      obtain ⟨hj0, -⟩ := hfold.refs_bound _ _ _ hk
      omega
    · exact hfree


/-- C9 (witness): a concrete successful run with a nested mapping and a
sequence; its result contains no holder reference. -/
theorem C9_witness :
    unflattenL [(RawKey.str "foo[2]", Term.str "z"), (RawKey.str "a.b", Term.int 1)] =
      .ok (EList.cons (Seg.field "foo")
        (Node.listV (NList.cons (Node.dictV EList.nil)
          (NList.cons (Node.term (Term.str "z")) NList.nil)))
        (EList.cons (Seg.field "a")
          (Node.dictV (EList.cons (Seg.field "b") (Node.term (Term.int 1)) EList.nil))
          EList.nil)) ∧
    elRefFree (EList.cons (Seg.field "foo")
        (Node.listV (NList.cons (Node.dictV EList.nil)
          (NList.cons (Node.term (Term.str "z")) NList.nil)))
        (EList.cons (Seg.field "a")
          (Node.dictV (EList.cons (Seg.field "b") (Node.term (Term.int 1)) EList.nil))
          EList.nil)) = true := by
  have hok : unflattenL [(RawKey.str "foo[2]", Term.str "z"),
      (RawKey.str "a.b", Term.int 1)] =
      .ok (EList.cons (Seg.field "foo")
        (Node.listV (NList.cons (Node.dictV EList.nil)
          (NList.cons (Node.term (Term.str "z")) NList.nil)))
        (EList.cons (Seg.field "a")
          (Node.dictV (EList.cons (Seg.field "b") (Node.term (Term.int 1)) EList.nil))
          EList.nil)) := by decide
  exact ⟨hok, C9_no_holder_leaks _ _ hok⟩


/-! ## The two-walk conflict (C3) -/

theorem Preserve_refl (st : BState) : Preserve st st :=
  ⟨fun _ _ _ h => h, fun _ h hj => ⟨h, hj, rfl⟩⟩

theorem Preserve_trans {s1 s2 s3 : BState} (h12 : Preserve s1 s2) (h23 : Preserve s2 s3) :
    Preserve s1 s3 := by
  constructor
  · intro o k j h
    exact h23.1 o k j (h12.1 o k j h)
  · intro j h hj
    obtain ⟨h2, hg2, hk2⟩ := h12.2 j h hj
    obtain ⟨h3, hg3, hk3⟩ := h23.2 j h2 hg2
    exact ⟨h3, hg3, hk3.trans hk2⟩

theorem preserve_addHolder {st : BState} {o : ObjRef} (hvo : ValidO st o) {key : Seg}
    (hnew : elGet (objData st o) key = none) (hk : HolderKind) (fk : String) :
    Preserve st (addHolder st o key hk fk).1 := by
  constructor
  · intro o' k' j hr
    rw [addHolder_elGet hvo key hk fk]
    by_cases hc1 : o' = o ∧ k' = key
    · rw [hc1.1, hc1.2] at hr
      rw [hnew] at hr
      exact absurd hr (by simp)
    · rw [if_neg hc1]
      by_cases hc2 : o' = ObjRef.node st.arena.length
      · rw [hc2] at hr
        rw [objData_invalid (by simp [ValidO])] at hr
        exact absurd hr (by simp [elGet])
      · rw [if_neg hc2]
        exact hr
  · intro j h hj
    obtain ⟨h', hg', hk', -⟩ := addHolder_get_old st o key hk fk hj
    exact ⟨h', hg', hk'⟩

theorem preserve_setSlot_nonref {st : BState} {o : ObjRef} (hvo : ValidO st o) {key : Seg}
    (hcur : elGet (objData st o) key = none ∨
      ∃ t, elGet (objData st o) key = some (.term t)) (v : Node) :
    Preserve st (setSlot st o key v) := by
  constructor
  · intro o' k' j hr
    rw [setSlot_elGet hvo key v]
    by_cases hc1 : o' = o ∧ k' = key
    · rw [hc1.1, hc1.2] at hr
      rcases hcur with hn | ⟨t, ht⟩
      · rw [hn] at hr
        exact absurd hr (by simp)
      · rw [ht] at hr
        exact absurd hr (by
          intro hcon
          injection hcon with hcon
          injection hcon)
    · rw [if_neg hc1]
      exact hr
  · intro j h hj
    obtain ⟨h', hg', hk', -⟩ := setSlot_kind st o key v hj
    exact ⟨h', hg', hk'⟩

theorem refKindMatches_term (st : BState) (t : Term) (hk : HolderKind) :
    refKindMatches st (.term t) hk = none := rfl

theorem refKindMatches_ref {st : BState} {j : Nat} {h : Holder} {hk : HolderKind}
    (hg : st.arena.get? j = some h) (he : h.kind = hk) :
    refKindMatches st (.ref j) hk = some j := by
  unfold refKindMatches
  dsimp only
  rw [hg]
  dsimp only
  rw [if_pos he]

theorem cursorFit_root (st : BState) (k : Seg) : CursorFit st ObjRef.root k :=
  fun m hm => absurd hm (by simp)

/-- A successful intermediate walk only adds holders and fills empty
slots: it preserves all established references and holder variants. -/
theorem buildInters_preserve : ∀ (path : List Seg) (st : BState) (o : ObjRef)
    (depth : Nat) (full : List Seg) (res : BState × ObjRef),
    Inv st → ValidO st o → (∀ k, path.head? = some k → CursorFit st o k) →
    buildInters st o path depth full = .ok res → Preserve st res.1 := by
  intro path
  induction path with
  | nil =>
    intro st o depth full res hinv hvo hcur heq
    rw [buildInters_nil] at heq
    injection heq with heq
    subst heq
    exact Preserve_refl st
  | cons key tl ih =>
    intro st o depth full res hinv hvo hcur heq
    rcases tl with _ | ⟨next, rest⟩
    · rw [buildInters_single] at heq
      injection heq with heq
      subst heq
      exact Preserve_refl st
    · rcases hsl : elGet (objData st o) key with _ | nd
      · rw [buildInters_create hsl] at heq
        have hfit0 : CursorFit st o key := hcur key rfl
        have hinv2 := addHolder_inv hinv hvo hsl hfit0 (holderKindOf next)
          (unparseKey (full.take depth))
        have hvo2 : ValidO (addHolder st o key (holderKindOf next)
            (unparseKey (full.take depth))).1 (ObjRef.node st.arena.length) := by
          show st.arena.length < _
          rw [addHolder_arena_length]
          omega
        have hfit2 : CursorFit (addHolder st o key (holderKindOf next)
            (unparseKey (full.take depth))).1 (ObjRef.node st.arena.length) next := by
          intro m hm h hgm
          injection hm with hm
          subst hm
          rw [addHolder_get_new st hvo key (holderKindOf next)
            (unparseKey (full.take depth))] at hgm
          injection hgm with hgm
          rw [← hgm]
        have hrec := ih _ _ (depth + 1) full res hinv2 hvo2
          (fun k hk => by
            injection hk with hk
            subst hk
            exact hfit2) heq
        exact Preserve_trans (preserve_addHolder hvo hsl _ _) hrec
      · rcases hrm : refKindMatches st nd (holderKindOf next) with _ | j
        · rw [buildInters_confl hsl hrm] at heq
          exact absurd heq (by simp)
        · rw [buildInters_descend hsl hrm] at heq
          obtain ⟨hnd, hh, hgj, hkind⟩ := refKindMatches_some hrm
          have hvoj : ValidO st (ObjRef.node j) := list_get?_lt hgj
          have hfitj : CursorFit st (ObjRef.node j) next := by
            intro m hm h hgm
            injection hm with hm
            subst hm
            rw [hgj] at hgm
            injection hgm with hgm
            rw [← hgm]
            exact hkind.symm
          exact ih st (ObjRef.node j) (depth + 1) full res hinv hvoj
            (fun k hk => by
              injection hk with hk
              subst hk
              exact hfitj) heq

/-- Re-walking a path whose intermediate walk already succeeded, in any
later state that preserves its references and holder variants, descends
through the same holders: no state change, same final cursor. -/
theorem buildInters_follow : ∀ (p : List Seg) (st0 : BState) (o : ObjRef) (depth : Nat)
    (full : List Seg) (st1 : BState) (c : ObjRef),
    Inv st0 → ValidO st0 o → (∀ k, p.head? = some k → CursorFit st0 o k) →
    buildInters st0 o p depth full = .ok (st1, c) →
    ∀ st2, Preserve st1 st2 → ∀ (depth' : Nat) (full' : List Seg),
      buildInters st2 o p depth' full' = .ok (st2, c) := by
  intro p
  induction p with
  | nil =>
    intro st0 o depth full st1 c hinv hvo hcur heq st2 hpres depth' full'
    rw [buildInters_nil] at heq
    injection heq with heq
    injection heq with h1 h2
    rw [← h2]
    exact buildInters_nil st2 o depth' full'
  | cons key tl ih =>
    intro st0 o depth full st1 c hinv hvo hcur heq st2 hpres depth' full'
    rcases tl with _ | ⟨next, rest⟩
    · rw [buildInters_single] at heq
      injection heq with heq
      injection heq with h1 h2
      rw [← h2]
      exact buildInters_single st2 o key depth' full'
    · rcases hsl : elGet (objData st0 o) key with _ | nd
      · rw [buildInters_create hsl] at heq
        have hfit0 : CursorFit st0 o key := hcur key rfl
        have hinv2 := addHolder_inv hinv hvo hsl hfit0 (holderKindOf next)
          (unparseKey (full.take depth))
        have hvo2 : ValidO (addHolder st0 o key (holderKindOf next)
            (unparseKey (full.take depth))).1 (ObjRef.node st0.arena.length) := by
          show st0.arena.length < _
          rw [addHolder_arena_length]
          omega
        have hfit2 : CursorFit (addHolder st0 o key (holderKindOf next)
            (unparseKey (full.take depth))).1 (ObjRef.node st0.arena.length) next := by
          intro m hm h hgm
          injection hm with hm
          subst hm
          rw [addHolder_get_new st0 hvo key (holderKindOf next)
            (unparseKey (full.take depth))] at hgm
          injection hgm with hgm
          rw [← hgm]
        have hcur2 : ∀ k, (next :: rest).head? = some k → CursorFit (addHolder st0 o key
            (holderKindOf next) (unparseKey (full.take depth))).1
            (ObjRef.node st0.arena.length) k := by
          intro k hk
          injection hk with hk
          subst hk
          exact hfit2
        have hpres1 : Preserve (addHolder st0 o key (holderKindOf next)
            (unparseKey (full.take depth))).1 st1 :=
          buildInters_preserve (next :: rest) _ _ (depth + 1) full (st1, c)
            hinv2 hvo2 hcur2 heq
        have hpres2 := Preserve_trans hpres1 hpres
        have hslH : elGet (objData (addHolder st0 o key (holderKindOf next)
            (unparseKey (full.take depth))).1 o) key =
            some (.ref st0.arena.length) := by
          rw [addHolder_elGet hvo key (holderKindOf next) (unparseKey (full.take depth)),
            if_pos ⟨rfl, rfl⟩]
        have hsl2 : elGet (objData st2 o) key = some (.ref st0.arena.length) :=
          hpres2.1 o key st0.arena.length hslH
        obtain ⟨h2', hg2, hk2⟩ := hpres2.2 st0.arena.length
          ⟨holderKindOf next, unparseKey (full.take depth), .nil⟩
          (addHolder_get_new st0 hvo key (holderKindOf next)
            (unparseKey (full.take depth)))
        rw [buildInters_descend hsl2 (refKindMatches_ref hg2 hk2)]
        exact ih _ _ (depth + 1) full st1 c hinv2 hvo2 hcur2 heq st2 hpres
          (depth' + 1) full'
      · rcases hrm : refKindMatches st0 nd (holderKindOf next) with _ | j
        · rw [buildInters_confl hsl hrm] at heq
          exact absurd heq (by simp)
        · rw [buildInters_descend hsl hrm] at heq
          obtain ⟨hnd, hh, hgj, hkind⟩ := refKindMatches_some hrm
          subst hnd
          have hvoj : ValidO st0 (ObjRef.node j) := list_get?_lt hgj
          have hfitj : CursorFit st0 (ObjRef.node j) next := by
            intro m hm h hgm
            injection hm with hm
            subst hm
            rw [hgj] at hgm
            injection hgm with hgm
            rw [← hgm]
            exact hkind.symm
          have hcurj : ∀ k, (next :: rest).head? = some k →
              CursorFit st0 (ObjRef.node j) k := by
            intro k hk
            injection hk with hk
            subst hk
            exact hfitj
          have hpres1 : Preserve st0 st1 :=
            buildInters_preserve (next :: rest) st0 (ObjRef.node j) (depth + 1) full
              (st1, c) hinv hvoj hcurj heq
          have hpres2 := Preserve_trans hpres1 hpres
          have hsl2 : elGet (objData st2 o) key = some (.ref j) :=
            hpres2.1 o key j hsl
          obtain ⟨h2', hg2, hk2⟩ := hpres2.2 j hh hgj
          rw [hkind] at hk2
          rw [buildInters_descend hsl2 (refKindMatches_ref hg2 hk2)]
          exact ih st0 (ObjRef.node j) (depth + 1) full st1 c hinv hvoj hcurj heq
            st2 hpres (depth' + 1) full'

/-- The intermediate walk decomposes at any interior point of the path. -/
theorem buildInters_append : ∀ (q : List Seg) (z : Seg) (tail : List Seg) (st : BState)
    (o : ObjRef) (d : Nat) (f : List Seg),
    buildInters st o (q ++ z :: tail) d f =
      match buildInters st o (q ++ [z]) d f with
      | .ok r => buildInters r.1 r.2 (z :: tail) (d + q.length) f
      | .error e => .error e := by
  intro q
  induction q with
  | nil =>
    intro z tail st o d f
    rw [List.nil_append, List.nil_append, buildInters_single]
    rfl
  | cons key q' ih =>
    intro z tail st o d f
    rw [List.cons_append, List.cons_append]
    have hzt : q' ++ z :: tail = (q' ++ [z]) ++ tail :=
      (List.append_assoc q' [z] tail).symm
    rw [hzt]
    rcases hh : q' ++ [z] with _ | ⟨y, qz⟩
    · exact absurd hh (by simp)
    · rw [List.cons_append]
      have harith : d + (key :: q').length = d + 1 + q'.length := by
        simp only [List.length_cons]
        omega
      rw [harith]
      rcases hsl : elGet (objData st o) key with _ | nd
      · rw [buildInters_create hsl, buildInters_create hsl]
        have ihinst := ih z tail
          (addHolder st o key (holderKindOf y) (unparseKey (f.take d))).1
          (ObjRef.node st.arena.length) (d + 1) f
        have hq1 : q' ++ z :: tail = y :: (qz ++ tail) := by
          rw [hzt, hh, List.cons_append]
        rw [hq1, hh] at ihinst
        exact ihinst
      · rcases hrm : refKindMatches st nd (holderKindOf y) with _ | j
        · rw [buildInters_confl hsl hrm, buildInters_confl hsl hrm]
        · rw [buildInters_descend hsl hrm, buildInters_descend hsl hrm]
          have ihinst := ih z tail st (ObjRef.node j) (d + 1) f
          have hq1 : q' ++ z :: tail = y :: (qz ++ tail) := by
            rw [hzt, hh, List.cons_append]
          rw [hq1, hh] at ihinst
          exact ihinst

/-- A walk over slots that are all missing: every step creates a fresh
holder; the walk succeeds and ends at a cursor whose object is empty (or,
for a short path, the unchanged start object with the head slot missing). -/
theorem buildInters_fresh : ∀ (path : List Seg) (st : BState) (o : ObjRef) (depth : Nat)
    (full : List Seg), ValidO st o →
    (∀ k, path.head? = some k → elGet (objData st o) k = none) →
    ∃ st1 c, buildInters st o path depth full = .ok (st1, c) ∧
      ∀ k, path.getLast? = some k → elGet (objData st1 c) k = none := by
  intro path
  induction path with
  | nil =>
    intro st o depth full hvo hfresh
    exact ⟨st, o, buildInters_nil st o depth full, fun k hk => absurd hk (by simp)⟩
  | cons key tl ih =>
    intro st o depth full hvo hfresh
    rcases tl with _ | ⟨next, rest⟩
    · refine ⟨st, o, buildInters_single st o key depth full, fun k hk => ?_⟩
      rw [List.getLast?_singleton] at hk
      injection hk with hk
      subst hk
      exact hfresh key rfl
    · have hsl := hfresh key rfl
      have hvo2 : ValidO (addHolder st o key (holderKindOf next)
          (unparseKey (full.take depth))).1 (ObjRef.node st.arena.length) := by
        show st.arena.length < _
        rw [addHolder_arena_length]
        omega
      have hfresh2 : ∀ k, (next :: rest).head? = some k →
          elGet (objData (addHolder st o key (holderKindOf next)
            (unparseKey (full.take depth))).1 (ObjRef.node st.arena.length)) k = none := by
        intro k hk
        rw [addHolder_objData_new st hvo key (holderKindOf next)
          (unparseKey (full.take depth))]
        rfl
      obtain ⟨st1, c, hok, hlast⟩ := ih _ (ObjRef.node st.arena.length) (depth + 1) full
        hvo2 hfresh2
      refine ⟨st1, c, ?_, ?_⟩
      · rw [buildInters_create hsl]
        exact hok
      · intro k hk
        rw [List.getLast?_cons_cons] at hk
        exact hlast k hk

theorem setLast_ref {st : BState} {o : ObjRef} {last : Seg} {j : Nat}
    (h : elGet (objData st o) last = some (.ref j)) (fk : String) (v : Term) :
    setLast st o fk last v = .error (.conflict (nodeTypeOf st (.ref j)) .terminal fk) := by
  unfold setLast
  rw [h]

theorem setLast_none {st : BState} {o : ObjRef} {last : Seg}
    (h : elGet (objData st o) last = none) (fk : String) (v : Term) :
    setLast st o fk last v = .ok (setSlot st o last (.term v)) := by
  unfold setLast
  rw [h]

theorem processPath_ok_inters {st : BState} {o : ObjRef} {path : List Seg} {d : Nat}
    {f : List Seg} {st1 : BState} {c : ObjRef}
    (h : buildInters st o path d f = .ok (st1, c)) (fk : String) (v : Term) :
    processPath st o path d f fk v = setLast st1 c fk (path.getLastD (.field "")) v := by
  unfold processPath
  rw [h]

theorem processPath_err {st : BState} {o : ObjRef} {path : List Seg} {d : Nat}
    {f : List Seg} {e : PyErr} (h : buildInters st o path d f = .error e)
    (fk : String) (v : Term) : processPath st o path d f fk v = .error e := by
  unfold processPath
  rw [h]

theorem processPair_str (st : BState) (s : String) (v : Term) :
    processPair st (.str s, v) =
      processPath st .root (parseKeyStr s) 1 (parseKeyStr s) s v := rfl

theorem buildAll_cons (st : BState) (pr : RawKey × Term) (rest : List (RawKey × Term)) :
    buildAll st (pr :: rest) =
      match processPair st pr with
      | .error e => .error e
      | .ok st1 => buildAll st1 rest := rfl

theorem buildAll_cons_ok {st st1 : BState} {pr : RawKey × Term}
    (h : processPair st pr = .ok st1) (rest : List (RawKey × Term)) :
    buildAll st (pr :: rest) = buildAll st1 rest := by
  rw [buildAll_cons, h]

theorem buildAll_cons_err {st : BState} {pr : RawKey × Term} {e : PyErr}
    (h : processPair st pr = .error e) (rest : List (RawKey × Term)) :
    buildAll st (pr :: rest) = .error e := by
  rw [buildAll_cons, h]

theorem unflattenL_err {pairs : List (RawKey × Term)} {e : PyErr}
    (h : buildAll initState pairs = .error e) : unflattenL pairs = .error e := by
  unfold unflattenL
  rw [h]


/-- C3: whenever one string key parses to a path `p` and another to a
strict extension `p ++ r`, the two-pair input raises a ValueError-class
conflict error in both iteration orders: terminal-then-nested conflicts
while walking the second key's intermediate segments, nested-then-terminal
conflicts at the final-segment check of the second key. -/
theorem C3_terminal_vs_holder (k1 k2 : String) (r : List Seg) (v1 v2 : Term)
    (hp2 : parseKeyStr k2 = parseKeyStr k1 ++ r) (hr : r ≠ []) :
    (∃ a b c, unflattenL [(.str k1, v1), (.str k2, v2)] = .error (.conflict a b c)) ∧
    (∃ a b c, unflattenL [(.str k2, v2), (.str k1, v1)] = .error (.conflict a b c)) := by
  obtain ⟨nm, rr, hph⟩ := parse_head_field k1
  have hpne : parseKeyStr k1 ≠ [] := by
    rw [hph]
    simp
  rcases List.eq_nil_or_concat (parseKeyStr k1) with hnil | ⟨q, z, hqz0⟩
  · exact absurd hnil hpne
  have hqz : parseKeyStr k1 = q ++ [z] := by
    rw [hqz0, List.concat_eq_append]
  rcases r with _ | ⟨r0, r'⟩
  · exact absurd rfl hr
  have hshape : parseKeyStr k2 = q ++ z :: r0 :: r' := by
    rw [hp2, hqz, List.append_assoc]
    rfl
  have hgdz : ∀ l : List Seg, l = q ++ [z] → l.getLastD (Seg.field "") = z := by
    intro l hl
    obtain ⟨a, ha1, ha2⟩ := getLast_facts l (Seg.field "") (by rw [hl]; simp)
    rw [hl, List.getLast?_concat] at ha1
    injection ha1 with ha1
    rw [ha2, ← ha1]
  constructor
  · -- terminal first: [(k1, v1), (k2, v2)]
    obtain ⟨stM, cM, hw1, hlast1⟩ := buildInters_fresh (parseKeyStr k1) initState .root 1
      (parseKeyStr k1) trivial
      (fun k hk => by rw [objData_initState]; rfl)
    obtain ⟨hinvM, hvoM, hfitM⟩ := buildInters_inv (parseKeyStr k1) initState .root 1
      (parseKeyStr k1) (stM, cM) initState_inv trivial
      (fun k _ => cursorFit_root initState k) hw1
    have hgl : (parseKeyStr k1).getLast? = some z := by
      rw [hqz]
      exact List.getLast?_concat q
    have hslz : elGet (objData stM cM) z = none := hlast1 z hgl
    have hgd : (parseKeyStr k1).getLastD (Seg.field "") = z := hgdz _ hqz
    have hpp1 : processPair initState (.str k1, v1) =
        .ok (setSlot stM cM z (.term v1)) := by
      rw [processPair_str, processPath_ok_inters hw1, hgd, setLast_none hslz]
    have hpresA : Preserve stM (setSlot stM cM z (.term v1)) :=
      preserve_setSlot_nonref hvoM (Or.inl hslz) _
    have hfollow := buildInters_follow (parseKeyStr k1) initState .root 1
      (parseKeyStr k1) stM cM initState_inv trivial
      (fun k _ => cursorFit_root initState k) hw1
      (setSlot stM cM z (.term v1)) hpresA 1 (q ++ z :: r0 :: r')
    rw [hqz] at hfollow
    have hterm2 : elGet (objData (setSlot stM cM z (.term v1)) cM) z =
        some (.term v1) := by
      rw [setSlot_elGet hvoM z (.term v1), if_pos ⟨rfl, rfl⟩]
    have hw2 : buildInters (setSlot stM cM z (.term v1)) .root (parseKeyStr k2) 1
        (parseKeyStr k2) =
        .error (.conflict (nodeTypeOf (setSlot stM cM z (.term v1)) (.term v1))
          (kindNT (holderKindOf r0))
          (unparseKey ((q ++ z :: r0 :: r').take (1 + q.length)))) := by
      rw [hshape, buildInters_append q z (r0 :: r'), hfollow]
      dsimp only
      exact buildInters_confl hterm2 (refKindMatches_term _ v1 _)
    have hpp2 : processPair (setSlot stM cM z (.term v1)) (.str k2, v2) =
        .error (.conflict (nodeTypeOf (setSlot stM cM z (.term v1)) (.term v1))
          (kindNT (holderKindOf r0))
          (unparseKey ((q ++ z :: r0 :: r').take (1 + q.length)))) := by
      rw [processPair_str, processPath_err hw2]
    have hba : buildAll initState [(.str k1, v1), (.str k2, v2)] =
        .error (.conflict (nodeTypeOf (setSlot stM cM z (.term v1)) (.term v1))
          (kindNT (holderKindOf r0))
          (unparseKey ((q ++ z :: r0 :: r').take (1 + q.length)))) := by
      rw [buildAll_cons_ok hpp1, buildAll_cons_err hpp2]
    exact ⟨_, _, _, unflattenL_err hba⟩
  · -- nested first: [(k2, v2), (k1, v1)]
    obtain ⟨stP, cP, hwP, hlastP⟩ := buildInters_fresh (q ++ [z]) initState .root 1
      (q ++ z :: r0 :: r') trivial
      (fun k hk => by rw [objData_initState]; rfl)
    obtain ⟨hinvP, hvoP, hfitP⟩ := buildInters_inv (q ++ [z]) initState .root 1
      (q ++ z :: r0 :: r') (stP, cP) initState_inv trivial
      (fun k _ => cursorFit_root initState k) hwP
    have hslzP : elGet (objData stP cP) z = none := hlastP z (List.getLast?_concat q)
    have hfitPz : CursorFit stP cP z := hfitP z (List.getLast?_concat q)
    have hinvH := addHolder_inv hinvP hvoP hslzP hfitPz (holderKindOf r0)
      (unparseKey ((q ++ z :: r0 :: r').take (1 + q.length)))
    have hvoH : ValidO (addHolder stP cP z (holderKindOf r0)
        (unparseKey ((q ++ z :: r0 :: r').take (1 + q.length)))).1
        (ObjRef.node stP.arena.length) := by
      show stP.arena.length < _
      rw [addHolder_arena_length]
      omega
    have hfitH : CursorFit (addHolder stP cP z (holderKindOf r0)
        (unparseKey ((q ++ z :: r0 :: r').take (1 + q.length)))).1
        (ObjRef.node stP.arena.length) r0 := by
      intro m hm h hgm
      injection hm with hm
      subst hm
      rw [addHolder_get_new stP hvoP z (holderKindOf r0)
        (unparseKey ((q ++ z :: r0 :: r').take (1 + q.length)))] at hgm
      injection hgm with hgm
      rw [← hgm]
    have hcurH : ∀ k, (r0 :: r').head? = some k → CursorFit (addHolder stP cP z
        (holderKindOf r0) (unparseKey ((q ++ z :: r0 :: r').take (1 + q.length)))).1
        (ObjRef.node stP.arena.length) k := by
      intro k hk
      injection hk with hk
      subst hk
      exact hfitH
    obtain ⟨stM2, cM2, hwC, hlastC⟩ := buildInters_fresh (r0 :: r')
      (addHolder stP cP z (holderKindOf r0)
        (unparseKey ((q ++ z :: r0 :: r').take (1 + q.length)))).1
      (ObjRef.node stP.arena.length) (1 + q.length + 1) (q ++ z :: r0 :: r') hvoH
      (fun k hk => by
        rw [addHolder_objData_new stP hvoP z (holderKindOf r0)
          (unparseKey ((q ++ z :: r0 :: r').take (1 + q.length)))]
        rfl)
    obtain ⟨hinvM2, hvoM2, hfitM2⟩ := buildInters_inv (r0 :: r') _
      (ObjRef.node stP.arena.length) (1 + q.length + 1) (q ++ z :: r0 :: r')
      (stM2, cM2) hinvH hvoH hcurH hwC
    have hwz : buildInters stP cP (z :: r0 :: r') (1 + q.length)
        (q ++ z :: r0 :: r') = .ok (stM2, cM2) := by
      rw [buildInters_create hslzP]
      exact hwC
    have hw1B : buildInters initState .root (parseKeyStr k2) 1 (parseKeyStr k2) =
        .ok (stM2, cM2) := by
      rw [hshape, buildInters_append q z (r0 :: r'), hwP]
      dsimp only
      exact hwz
    -- the last slot of the full nested path is empty at the final cursor
    rcases List.eq_nil_or_concat (r0 :: r') with hnil2 | ⟨w', w, hww0⟩
    · exact absurd hnil2 (by simp)
    have hww : r0 :: r' = w' ++ [w] := by
      rw [hww0, List.concat_eq_append]
    have hglB : (parseKeyStr k2).getLastD (Seg.field "") = w := by
      obtain ⟨a, ha1, ha2⟩ := getLast_facts (parseKeyStr k2) (Seg.field "")
        (by rw [hshape]; simp)
      have hcat : parseKeyStr k2 = (q ++ z :: w') ++ [w] := by
        rw [hshape, hww, List.append_assoc]
        rfl
      rw [hcat, List.getLast?_concat] at ha1
      injection ha1 with ha1
      rw [ha2, ← ha1]
    have hslw : elGet (objData stM2 cM2) w = none := by
      refine hlastC w ?_
      rw [hww]
      exact List.getLast?_concat w'
    have hpp2 : processPair initState (.str k2, v2) =
        .ok (setSlot stM2 cM2 w (.term v2)) := by
      rw [processPair_str, processPath_ok_inters hw1B, hglB, setLast_none hslw]
    -- the prefix slot holds the holder reference, preserved to the end
    have hrefH : elGet (objData (addHolder stP cP z (holderKindOf r0)
        (unparseKey ((q ++ z :: r0 :: r').take (1 + q.length)))).1 cP) z =
        some (.ref stP.arena.length) := by
      rw [addHolder_elGet hvoP z (holderKindOf r0)
        (unparseKey ((q ++ z :: r0 :: r').take (1 + q.length))), if_pos ⟨rfl, rfl⟩]
    have hpresC : Preserve (addHolder stP cP z (holderKindOf r0)
        (unparseKey ((q ++ z :: r0 :: r').take (1 + q.length)))).1 stM2 :=
      buildInters_preserve (r0 :: r') _ (ObjRef.node stP.arena.length)
        (1 + q.length + 1) (q ++ z :: r0 :: r') (stM2, cM2) hinvH hvoH hcurH hwC
    have hpresL : Preserve stM2 (setSlot stM2 cM2 w (.term v2)) :=
      preserve_setSlot_nonref hvoM2 (Or.inl hslw) _
    have hrefB : elGet (objData (setSlot stM2 cM2 w (.term v2)) cP) z =
        some (.ref stP.arena.length) :=
      hpresL.1 _ _ _ (hpresC.1 _ _ _ hrefH)
    have hpresPB : Preserve stP (setSlot stM2 cM2 w (.term v2)) :=
      Preserve_trans (preserve_addHolder hvoP hslzP _ _) (Preserve_trans hpresC hpresL)
    have hfollowB := buildInters_follow (q ++ [z]) initState .root 1
      (q ++ z :: r0 :: r') stP cP initState_inv trivial
      (fun k _ => cursorFit_root initState k) hwP
      (setSlot stM2 cM2 w (.term v2)) hpresPB 1 (q ++ [z])
    have hgdB : (q ++ [z]).getLastD (Seg.field "") = z := hgdz _ rfl
    have hpp1 : processPair (setSlot stM2 cM2 w (.term v2)) (.str k1, v1) =
        .error (.conflict (nodeTypeOf (setSlot stM2 cM2 w (.term v2))
          (.ref stP.arena.length)) .terminal k1) := by
      rw [processPair_str, hqz, processPath_ok_inters hfollowB, hgdB,
        setLast_ref hrefB k1 v1]
    have hba : buildAll initState [(.str k2, v2), (.str k1, v1)] =
        .error (.conflict (nodeTypeOf (setSlot stM2 cM2 w (.term v2))
          (.ref stP.arena.length)) .terminal k1) := by
      rw [buildAll_cons_ok hpp2, buildAll_cons_err hpp1]
    exact ⟨_, _, _, unflattenL_err hba⟩

/-- C3 (witness): `{"foo": 1, "foo.bar": 2}` conflicts in both orders. -/
theorem C3_witness :
    parseKeyStr "foo.bar" = parseKeyStr "foo" ++ [Seg.field "bar"] ∧
    (∃ a b c, unflattenL [(.str "foo", .int 1), (.str "foo.bar", .int 2)] =
      .error (.conflict a b c)) ∧
    (∃ a b c, unflattenL [(.str "foo.bar", .int 2), (.str "foo", .int 1)] =
      .error (.conflict a b c)) :=
  ⟨by decide,
    (C3_terminal_vs_holder "foo" "foo.bar" [Seg.field "bar"] (.int 1) (.int 2)
      (by decide) (by simp)).1,
    (C3_terminal_vs_holder "foo" "foo.bar" [Seg.field "bar"] (.int 1) (.int 2)
      (by decide) (by simp)).2⟩


/-! ## The general mapping-vs-sequence prefix clash (C2) -/

theorem take_length_append {α : Type} : ∀ (l1 l2 : List α), (l1 ++ l2).take l1.length = l1 := by
  intro l1
  induction l1 with
  | nil => intro l2; rfl
  | cons a l1 ih =>
    intro l2
    show a :: (l1 ++ l2).take l1.length = a :: l1
    rw [ih]

theorem nodeTypeOf_ref {st : BState} {i : Nat} {h : Holder}
    (hg : st.arena.get? i = some h) : nodeTypeOf st (.ref i) = kindNT h.kind := by
  unfold nodeTypeOf
  dsimp only
  rw [hg]

theorem refKindMatches_ref_ne {st : BState} {i : Nat} {h : Holder} {hk : HolderKind}
    (hg : st.arena.get? i = some h) (hne : h.kind ≠ hk) :
    refKindMatches st (.ref i) hk = none := by
  unfold refKindMatches
  dsimp only
  rw [hg]
  dsimp only
  rw [if_neg hne]

/-- One order of the clash: the first key establishes a holder of its
variant at the shared prefix; walking the second key finds that holder,
demands the other variant, and raises the conflict naming both node types
and the unparsed shared prefix. -/
theorem kind_clash_one_order (k1 k2 : String) (q' : List Seg) (z s1 s2 : Seg)
    (r1 r2 : List Seg) (v1 v2 : Term)
    (h1 : parseKeyStr k1 = (q' ++ [z]) ++ s1 :: r1)
    (h2 : parseKeyStr k2 = (q' ++ [z]) ++ s2 :: r2)
    (hne : holderKindOf s1 ≠ holderKindOf s2) :
    unflattenL [(.str k1, v1), (.str k2, v2)] =
      .error (.conflict (kindNT (holderKindOf s1)) (kindNT (holderKindOf s2))
        (unparseKey (q' ++ [z]))) := by
  have hshape1 : parseKeyStr k1 = q' ++ z :: s1 :: r1 := by
    rw [h1, List.append_assoc]
    rfl
  have hshape2 : parseKeyStr k2 = q' ++ z :: s2 :: r2 := by
    rw [h2, List.append_assoc]
    rfl
  obtain ⟨stP, cP, hwP, hlastP⟩ := buildInters_fresh (q' ++ [z]) initState .root 1
    (q' ++ z :: s1 :: r1) trivial
    (fun k hk => by rw [objData_initState]; rfl)
  obtain ⟨hinvP, hvoP, hfitP⟩ := buildInters_inv (q' ++ [z]) initState .root 1
    (q' ++ z :: s1 :: r1) (stP, cP) initState_inv trivial
    (fun k _ => cursorFit_root initState k) hwP
  have hslzP : elGet (objData stP cP) z = none := hlastP z (List.getLast?_concat q')
  have hfitPz : CursorFit stP cP z := hfitP z (List.getLast?_concat q')
  have hinvH := addHolder_inv hinvP hvoP hslzP hfitPz (holderKindOf s1)
    (unparseKey ((q' ++ z :: s1 :: r1).take (1 + q'.length)))
  have hvoH : ValidO (addHolder stP cP z (holderKindOf s1)
      (unparseKey ((q' ++ z :: s1 :: r1).take (1 + q'.length)))).1
      (ObjRef.node stP.arena.length) := by
    show stP.arena.length < _
    rw [addHolder_arena_length]
    omega
  have hfitH : CursorFit (addHolder stP cP z (holderKindOf s1)
      (unparseKey ((q' ++ z :: s1 :: r1).take (1 + q'.length)))).1
      (ObjRef.node stP.arena.length) s1 := by
    intro m hm h hgm
    injection hm with hm
    subst hm
    rw [addHolder_get_new stP hvoP z (holderKindOf s1)
      (unparseKey ((q' ++ z :: s1 :: r1).take (1 + q'.length)))] at hgm
    injection hgm with hgm
    rw [← hgm]
  have hcurH : ∀ k, (s1 :: r1).head? = some k → CursorFit (addHolder stP cP z
      (holderKindOf s1) (unparseKey ((q' ++ z :: s1 :: r1).take (1 + q'.length)))).1
      (ObjRef.node stP.arena.length) k := by
    intro k hk
    injection hk with hk
    subst hk
    exact hfitH
  obtain ⟨stM, cM, hwC, hlastC⟩ := buildInters_fresh (s1 :: r1)
    (addHolder stP cP z (holderKindOf s1)
      (unparseKey ((q' ++ z :: s1 :: r1).take (1 + q'.length)))).1
    (ObjRef.node stP.arena.length) (1 + q'.length + 1) (q' ++ z :: s1 :: r1) hvoH
    (fun k hk => by
      rw [addHolder_objData_new stP hvoP z (holderKindOf s1)
        (unparseKey ((q' ++ z :: s1 :: r1).take (1 + q'.length)))]
      rfl)
  obtain ⟨hinvM, hvoM, hfitM⟩ := buildInters_inv (s1 :: r1) _
    (ObjRef.node stP.arena.length) (1 + q'.length + 1) (q' ++ z :: s1 :: r1)
    (stM, cM) hinvH hvoH hcurH hwC
  have hwz : buildInters stP cP (z :: s1 :: r1) (1 + q'.length)
      (q' ++ z :: s1 :: r1) = .ok (stM, cM) := by
    rw [buildInters_create hslzP]
    exact hwC
  have hw1 : buildInters initState .root (parseKeyStr k1) 1 (parseKeyStr k1) =
      .ok (stM, cM) := by
    rw [hshape1, buildInters_append q' z (s1 :: r1), hwP]
    dsimp only
    exact hwz
  rcases List.eq_nil_or_concat (s1 :: r1) with hnil2 | ⟨w', w, hww0⟩
  · exact absurd hnil2 (by simp)
  have hww : s1 :: r1 = w' ++ [w] := by
    rw [hww0, List.concat_eq_append]
  have hglB : (parseKeyStr k1).getLastD (Seg.field "") = w := by
    obtain ⟨a, ha1, ha2⟩ := getLast_facts (parseKeyStr k1) (Seg.field "")
      (by rw [hshape1]; simp)
    have hcat : parseKeyStr k1 = (q' ++ z :: w') ++ [w] := by
      rw [hshape1, hww, List.append_assoc]
      rfl
    rw [hcat, List.getLast?_concat] at ha1
    injection ha1 with ha1
    rw [ha2, ← ha1]
  have hslw : elGet (objData stM cM) w = none := by
    refine hlastC w ?_
    rw [hww]
    exact List.getLast?_concat w'
  have hpp1 : processPair initState (.str k1, v1) =
      .ok (setSlot stM cM w (.term v1)) := by
    rw [processPair_str, processPath_ok_inters hw1, hglB, setLast_none hslw]
  have hrefH : elGet (objData (addHolder stP cP z (holderKindOf s1)
      (unparseKey ((q' ++ z :: s1 :: r1).take (1 + q'.length)))).1 cP) z =
      some (.ref stP.arena.length) := by
    rw [addHolder_elGet hvoP z (holderKindOf s1)
      (unparseKey ((q' ++ z :: s1 :: r1).take (1 + q'.length))), if_pos ⟨rfl, rfl⟩]
  have hpresC : Preserve (addHolder stP cP z (holderKindOf s1)
      (unparseKey ((q' ++ z :: s1 :: r1).take (1 + q'.length)))).1 stM :=
    buildInters_preserve (s1 :: r1) _ (ObjRef.node stP.arena.length)
      (1 + q'.length + 1) (q' ++ z :: s1 :: r1) (stM, cM) hinvH hvoH hcurH hwC
  have hpresL : Preserve stM (setSlot stM cM w (.term v1)) :=
    preserve_setSlot_nonref hvoM (Or.inl hslw) _
  have hpresHA := Preserve_trans hpresC hpresL
  have hrefA : elGet (objData (setSlot stM cM w (.term v1)) cP) z =
      some (.ref stP.arena.length) := hpresHA.1 _ _ _ hrefH
  obtain ⟨hA, hgA, hkA⟩ := hpresHA.2 stP.arena.length
    ⟨holderKindOf s1, unparseKey ((q' ++ z :: s1 :: r1).take (1 + q'.length)), .nil⟩
    (addHolder_get_new stP hvoP z (holderKindOf s1)
      (unparseKey ((q' ++ z :: s1 :: r1).take (1 + q'.length))))
  have hpresPA : Preserve stP (setSlot stM cM w (.term v1)) :=
    Preserve_trans (preserve_addHolder hvoP hslzP _ _) hpresHA
  have hfollowA := buildInters_follow (q' ++ [z]) initState .root 1
    (q' ++ z :: s1 :: r1) stP cP initState_inv trivial
    (fun k _ => cursorFit_root initState k) hwP
    (setSlot stM cM w (.term v1)) hpresPA 1 (q' ++ z :: s2 :: r2)
  have htake : (q' ++ z :: s2 :: r2).take (1 + q'.length) = q' ++ [z] := by
    have hF2 : q' ++ z :: s2 :: r2 = (q' ++ [z]) ++ (s2 :: r2) :=
      (List.append_assoc q' [z] (s2 :: r2)).symm
    have h1l : (q' ++ [z]).length = q'.length + 1 := by simp
    rw [hF2, show 1 + q'.length = (q' ++ [z]).length from by omega, take_length_append]
  have hnt : nodeTypeOf (setSlot stM cM w (.term v1)) (.ref stP.arena.length) =
      kindNT (holderKindOf s1) := by
    rw [nodeTypeOf_ref hgA, hkA]
  have hrkm : refKindMatches (setSlot stM cM w (.term v1)) (.ref stP.arena.length)
      (holderKindOf s2) = none := by
    refine refKindMatches_ref_ne hgA ?_
    rw [hkA]
    exact hne
  have hw2 : buildInters (setSlot stM cM w (.term v1)) .root (parseKeyStr k2) 1
      (parseKeyStr k2) =
      .error (.conflict (kindNT (holderKindOf s1)) (kindNT (holderKindOf s2))
        (unparseKey (q' ++ [z]))) := by
    rw [hshape2, buildInters_append q' z (s2 :: r2), hfollowA]
    dsimp only
    rw [buildInters_confl hrefA hrkm, hnt, htake]
  have hpp2 : processPair (setSlot stM cM w (.term v1)) (.str k2, v2) =
      .error (.conflict (kindNT (holderKindOf s1)) (kindNT (holderKindOf s2))
        (unparseKey (q' ++ [z]))) := by
    rw [processPair_str, processPath_err hw2]
  have hba : buildAll initState [(.str k1, v1), (.str k2, v2)] =
      .error (.conflict (kindNT (holderKindOf s1)) (kindNT (holderKindOf s2))
        (unparseKey (q' ++ [z]))) := by
    rw [buildAll_cons_ok hpp1, buildAll_cons_err hpp2]
  exact unflattenL_err hba

/-- C2 (amended): for every pair of string keys whose parsed paths share a
nonempty prefix and then demand different holder variants at the same
position (one a field name, the other an index), the two-entry input
raises, in either order, the ValueError-class conflict error naming the
previously established and newly required node types and referencing the
unparsed shared key prefix; in particular `{"foo.bar": 1, "foo[0]": 2}`
raises the (dict, list) conflict at `"foo"`, and the reverse order the
(list, dict) conflict at `"foo"`. -/
theorem C2_amended : ∀ (k1 k2 : String) (q : List Seg) (s1 s2 : Seg)
    (r1 r2 : List Seg) (v1 v2 : Term),
    parseKeyStr k1 = q ++ s1 :: r1 → parseKeyStr k2 = q ++ s2 :: r2 →
    q ≠ [] → holderKindOf s1 ≠ holderKindOf s2 →
    unflattenL [(.str k1, v1), (.str k2, v2)] =
      .error (.conflict (kindNT (holderKindOf s1)) (kindNT (holderKindOf s2))
        (unparseKey q)) ∧
    unflattenL [(.str k2, v2), (.str k1, v1)] =
      .error (.conflict (kindNT (holderKindOf s2)) (kindNT (holderKindOf s1))
        (unparseKey q)) := by
  intro k1 k2 q s1 s2 r1 r2 v1 v2 h1 h2 hq hne
  rcases List.eq_nil_or_concat q with hnil | ⟨q', z, hq0⟩
  · exact absurd hnil hq
  have hqz : q = q' ++ [z] := by
    rw [hq0, List.concat_eq_append]
  rw [hqz] at h1 h2 ⊢
  exact ⟨kind_clash_one_order k1 k2 q' z s1 s2 r1 r2 v1 v2 h1 h2 hne,
    kind_clash_one_order k2 k1 q' z s2 s1 r2 r1 v2 v1 h2 h1 (Ne.symm hne)⟩

/-- C2 (witness): the clash of `"foo.bar"` and `"foo[0]"` at the shared
prefix `"foo"`, in both orders. -/
theorem C2_witness :
    parseKeyStr "foo.bar" = [Seg.field "foo"] ++ Seg.field "bar" :: [] ∧
    parseKeyStr "foo[0]" = [Seg.field "foo"] ++ Seg.index 0 :: [] ∧
    ([Seg.field "foo"] : List Seg) ≠ [] ∧
    holderKindOf (Seg.field "bar") ≠ holderKindOf (Seg.index 0) ∧
    unflattenL [(.str "foo.bar", .int 1), (.str "foo[0]", .int 2)] =
      .error (.conflict NodeType.dict NodeType.list "foo") ∧
    unflattenL [(.str "foo[0]", .int 2), (.str "foo.bar", .int 1)] =
      .error (.conflict NodeType.list NodeType.dict "foo") := by
  have h := C2_amended "foo.bar" "foo[0]" [Seg.field "foo"] (Seg.field "bar")
    (Seg.index 0) [] [] (.int 1) (.int 2) (by decide) (by decide) (by simp) (by decide)
  exact ⟨by decide, by decide, by simp, by decide, h.1, h.2⟩

end Unflatten
